import Mathlib

/-!
Shallow embedding of the quantum-circuit-designer diagram-to-circuit compiler
(`app.py`, class `QuantumCircuitDesigner`) together with theorems checking the
frozen claims about it.

Modelling conventions:
* Diagram coordinates are rationals (`Pt := ℚ × ℚ`); the Python code stores
  grid-snapped integer tuples, and all of its arithmetic on them is exact at
  the rational level.  Float arithmetic (`math.sqrt`, division) is modelled by
  exact real arithmetic (`Real.sqrt`, `ℝ` division).
* `point_to_line_distance` returns `Option ℝ`; `none` stands for the
  `float("inf")` sentinel of the zero-denominator branch.
* Comparisons of a distance `d = Real.sqrt s` against a constant `c` are
  evaluated through the equivalent rational comparison `s ≤ c ^ 2`; the
  bridge lemma `point_on_line_segment_iff_dist` proves the Bool-valued
  on-segment test equal to the source's formulation through the real-valued
  distance function.
* Python `set` objects holding small wire indices are modelled by `Finset ℕ`;
  iteration over such a set is modelled as iteration in ascending order
  (CPython iterates small-integer sets in ascending slot order).
-/

/-- A diagram point, as stored after grid snapping. -/
abbrev Pt : Type := ℚ × ℚ

/-- Squared Euclidean distance between two points; the exact value of the
Python expression `(p[0]-q[0])**2 + (p[1]-q[1])**2`. -/
def distSqQ (p q : Pt) : ℚ :=
  (p.1 - q.1) ^ 2 + (p.2 - q.2) ^ 2

/-- `point_near_pos(pos1, pos2, threshold)` from the source: squared-distance
comparison `dx*dx + dy*dy <= threshold*threshold`. -/
def point_near_pos (p q : Pt) (threshold : ℚ) : Bool :=
  decide (distSqQ p q ≤ threshold * threshold)

/-- `point_to_line_distance(point, line_start, line_end)` from the source,
with floats idealised as reals.  `none` models the `float("inf")` returned by
the zero-denominator branch. -/
noncomputable def point_to_line_distance (p a b : Pt) : Option ℝ :=
  if a = b then some (Real.sqrt ((distSqQ p a : ℚ) : ℝ))
  else
    let numerator : ℚ := (p.1 - a.1) * (b.1 - a.1) + (p.2 - a.2) * (b.2 - a.2)
    let denominator : ℝ := Real.sqrt (((b.2 - a.2) ^ 2 + (b.1 - a.1) ^ 2 : ℚ) : ℝ)
    if denominator = 0 then none
    else
      let t : ℝ := max 0 (min 1 ((numerator : ℝ) / denominator ^ 2))
      let projx : ℝ := (a.1 : ℝ) + t * ((b.1 : ℝ) - (a.1 : ℝ))
      let projy : ℝ := (a.2 : ℝ) + t * ((b.2 : ℝ) - (a.2 : ℝ))
      some (Real.sqrt (((p.1 : ℝ) - projx) ^ 2 + ((p.2 : ℝ) - projy) ^ 2))

/-- The square of the value computed by `point_to_line_distance`, which is a
rational number: the clamped projection parameter
`t = max(0, min(1, numerator/denominator**2))` is rational because
`denominator**2` equals the rational squared segment length. -/
def distToSegSq (p a b : Pt) : ℚ :=
  if a = b then distSqQ p a
  else
    let numerator : ℚ := (p.1 - a.1) * (b.1 - a.1) + (p.2 - a.2) * (b.2 - a.2)
    let den2 : ℚ := (b.2 - a.2) ^ 2 + (b.1 - a.1) ^ 2
    let t : ℚ := max 0 (min 1 (numerator / den2))
    distSqQ p (a.1 + t * (b.1 - a.1), a.2 + t * (b.2 - a.2))

/-- `point_on_line_segment(point, line_start, line_end)` from the source:
distance-to-segment at most `grid_size/2 = 10` (tested on squares:
`d <= 10` iff `d^2 <= 100`), and the point inside the segment's bounding
box. -/
def point_on_line_segment (p a b : Pt) : Bool :=
  decide (distToSegSq p a b ≤ 100) &&
    decide (min a.1 b.1 ≤ p.1 ∧ p.1 ≤ max a.1 b.1 ∧
            min a.2 b.2 ≤ p.2 ∧ p.2 ≤ max a.2 b.2)

/-- The consecutive-point segments of a wire polyline: the Python iteration
`zip(wire.points, wire.points[1:])`. -/
def segments (w : List Pt) : List (Pt × Pt) :=
  w.zip w.tail

/-- `0 ≤ distSqQ`. -/
lemma distSqQ_nonneg (p q : Pt) : 0 ≤ distSqQ p q := by
  have h1 : (0 : ℚ) ≤ (p.1 - q.1) ^ 2 := sq_nonneg _
  have h2 : (0 : ℚ) ≤ (p.2 - q.2) ^ 2 := sq_nonneg _
  simpa [distSqQ] using add_nonneg h1 h2

/-- `distSqQ p q = 0` iff the points are equal. -/
lemma distSqQ_eq_zero_iff (p q : Pt) : distSqQ p q = 0 ↔ p = q := by
  constructor
  · intro h
    have h1 : (0 : ℚ) ≤ (p.1 - q.1) ^ 2 := sq_nonneg _
    have h2 : (0 : ℚ) ≤ (p.2 - q.2) ^ 2 := sq_nonneg _
    have hx : (p.1 - q.1) ^ 2 = 0 := by
      unfold distSqQ at h; nlinarith
    have hy : (p.2 - q.2) ^ 2 = 0 := by
      unfold distSqQ at h; nlinarith
    have hx' : p.1 = q.1 := by
      have := pow_eq_zero_iff (n := 2) (by norm_num) |>.mp hx
      linarith
    have hy' : p.2 = q.2 := by
      have := pow_eq_zero_iff (n := 2) (by norm_num) |>.mp hy
      linarith
    exact Prod.ext hx' hy'
  · intro h; subst h; simp [distSqQ]

/-- `distSqQ` is symmetric. -/
lemma distSqQ_comm (p q : Pt) : distSqQ p q = distSqQ q p := by
  unfold distSqQ; ring

/-- `0 ≤ distToSegSq`. -/
lemma distToSegSq_nonneg (p a b : Pt) : 0 ≤ distToSegSq p a b := by
  unfold distToSegSq
  split
  · exact distSqQ_nonneg _ _
  · exact distSqQ_nonneg _ _

/-- The real-valued distance function always returns the square root of the
rational squared distance `distToSegSq`: the `float("inf")` branch is dead
code because the denominator is the square root of a positive rational
whenever the endpoints differ. -/
lemma point_to_line_distance_eq (p a b : Pt) :
    point_to_line_distance p a b = some (Real.sqrt ((distToSegSq p a b : ℚ) : ℝ)) := by
  unfold point_to_line_distance distToSegSq
  by_cases hab : a = b
  · simp [hab]
  · have hq : (0 : ℚ) < (b.2 - a.2) ^ 2 + (b.1 - a.1) ^ 2 := by
      have hne : distSqQ b a ≠ 0 := by
        intro h
        exact hab ((distSqQ_eq_zero_iff b a).mp h).symm
      have hnn : (0 : ℚ) ≤ distSqQ b a := distSqQ_nonneg b a
      have : distSqQ b a = (b.2 - a.2) ^ 2 + (b.1 - a.1) ^ 2 := by
        unfold distSqQ; ring
      rw [this] at hne hnn
      exact lt_of_le_of_ne hnn (Ne.symm hne)
    have hqR : (0 : ℝ) < (((b.2 - a.2) ^ 2 + (b.1 - a.1) ^ 2 : ℚ) : ℝ) := by
      exact_mod_cast hq
    have hden : Real.sqrt (((b.2 - a.2) ^ 2 + (b.1 - a.1) ^ 2 : ℚ) : ℝ) ≠ 0 := by
      have := Real.sqrt_pos.mpr hqR
      linarith
    have hsq : (Real.sqrt (((b.2 - a.2) ^ 2 + (b.1 - a.1) ^ 2 : ℚ) : ℝ)) ^ 2
        = (((b.2 - a.2) ^ 2 + (b.1 - a.1) ^ 2 : ℚ) : ℝ) :=
      Real.sq_sqrt hqR.le
    simp only [hab, if_false, hden, if_false]
    rw [Option.some_inj]
    congr 1
    rw [hsq]
    push_cast [distSqQ]
    ring

/-- Faithfulness bridge: the Bool-valued on-segment test equals the source's
formulation `point_to_line_distance(point,a,b) <= grid_size/2 = 10` combined
with the bounding-box test. -/
lemma point_on_line_segment_iff_dist (p a b : Pt) :
    point_on_line_segment p a b = true ↔
      (∃ r : ℝ, point_to_line_distance p a b = some r ∧ r ≤ 10) ∧
      (min a.1 b.1 ≤ p.1 ∧ p.1 ≤ max a.1 b.1 ∧
       min a.2 b.2 ≤ p.2 ∧ p.2 ≤ max a.2 b.2) := by
  unfold point_on_line_segment
  rw [Bool.and_eq_true, decide_eq_true_eq, decide_eq_true_eq]
  constructor
  · rintro ⟨hd, hbox⟩
    refine ⟨⟨Real.sqrt ((distToSegSq p a b : ℚ) : ℝ), point_to_line_distance_eq p a b, ?_⟩, hbox⟩
    rw [Real.sqrt_le_iff]
    constructor
    · norm_num
    · have h : ((distToSegSq p a b : ℚ) : ℝ) ≤ 100 := by exact_mod_cast hd
      have h2 : ((10 : ℝ)) ^ 2 = 100 := by norm_num
      rw [h2]; exact h
  · rintro ⟨⟨r, hr, hr10⟩, hbox⟩
    rw [point_to_line_distance_eq] at hr
    refine ⟨?_, hbox⟩
    have hrr : Real.sqrt ((distToSegSq p a b : ℚ) : ℝ) ≤ 10 := by
      rw [Option.some_inj] at hr; rw [hr]; exact hr10
    have h100 : ((distToSegSq p a b : ℚ) : ℝ) ≤ 100 := by
      have hnn : (0 : ℝ) ≤ ((distToSegSq p a b : ℚ) : ℝ) := by
        exact_mod_cast distToSegSq_nonneg p a b
      nlinarith [Real.sq_sqrt hnn, Real.sqrt_nonneg ((distToSegSq p a b : ℚ) : ℝ)]
    exact_mod_cast h100

/-- The squared distance from a segment's start point to the segment is 0. -/
lemma distToSegSq_start (a b : Pt) : distToSegSq a a b = 0 := by
  by_cases hab : a = b
  · simp [distToSegSq, hab, (distSqQ_eq_zero_iff b b).mpr rfl]
  · simp only [distToSegSq, hab, if_false, sub_self, zero_mul, mul_zero, add_zero, zero_div]
    rw [show max (0 : ℚ) (min 1 0) = 0 by norm_num]
    simpa using (distSqQ_eq_zero_iff a a).mpr rfl

/-- The squared distance from a segment's end point to the segment is 0. -/
lemma distToSegSq_end (a b : Pt) : distToSegSq b a b = 0 := by
  by_cases hab : a = b
  · subst hab
    simp [distToSegSq, (distSqQ_eq_zero_iff a a).mpr rfl]
  · have hden : ((b.2 - a.2) ^ 2 + (b.1 - a.1) ^ 2 : ℚ) ≠ 0 := by
      intro hc
      apply hab
      have h0 : distSqQ a b = 0 := by
        unfold distSqQ; rw [← hc]; ring
      exact (distSqQ_eq_zero_iff a b).mp h0
    have hnum : ((b.1 - a.1) * (b.1 - a.1) + (b.2 - a.2) * (b.2 - a.2) : ℚ)
        = (b.2 - a.2) ^ 2 + (b.1 - a.1) ^ 2 := by ring
    simp only [distToSegSq, hab, if_false]
    rw [hnum, div_self hden]
    rw [show max (0 : ℚ) (min 1 1) = 1 by norm_num]
    have h1 : distSqQ b (a.1 + 1 * (b.1 - a.1), a.2 + 1 * (b.2 - a.2)) = 0 := by
      unfold distSqQ; ring
    simpa using h1

/-- A segment's start point passes the on-segment test. -/
lemma point_on_line_segment_start (a b : Pt) : point_on_line_segment a a b = true := by
  unfold point_on_line_segment
  rw [Bool.and_eq_true, decide_eq_true_eq, decide_eq_true_eq]
  refine ⟨by rw [distToSegSq_start]; norm_num, ?_⟩
  exact ⟨min_le_left _ _, le_max_left _ _, min_le_left _ _, le_max_left _ _⟩

/-- A segment's end point passes the on-segment test. -/
lemma point_on_line_segment_end (a b : Pt) : point_on_line_segment b a b = true := by
  unfold point_on_line_segment
  rw [Bool.and_eq_true, decide_eq_true_eq, decide_eq_true_eq]
  refine ⟨by rw [distToSegSq_end]; norm_num, ?_⟩
  exact ⟨min_le_right _ _, le_max_right _ _, min_le_right _ _, le_max_right _ _⟩

/-- Length of one wire segment: the Python expression
`math.sqrt((p2[0] - p1[0]) ** 2 + (p2[1] - p1[1]) ** 2)`. -/
noncomputable def segLen (a b : Pt) : ℝ :=
  Real.sqrt ((distSqQ b a : ℚ) : ℝ)

/-- Total length of a list of segments. -/
noncomputable def sumLen : List (Pt × Pt) → ℝ
  | [] => 0
  | s :: rest => segLen s.1 s.2 + sumLen rest

/-- The loop state of `get_position_along_wire`: walking the segment list
while accumulating `total_length` and `current_length`, and recording
`(target_segment, segment_start)` at every segment containing the point (so
the values kept at the end come from the LAST matching segment). -/
noncomputable def posAux (p : Pt) :
    List (Pt × Pt) → ℝ → ℝ → Option ((Pt × Pt) × ℝ) → ℝ × Option ((Pt × Pt) × ℝ)
  | [], total, _, acc => (total, acc)
  | s :: rest, total, cur, acc =>
      posAux p rest (total + segLen s.1 s.2) (cur + segLen s.1 s.2)
        (if point_on_line_segment p s.1 s.2 then some (s, cur) else acc)

/-- `get_position_along_wire(point, wire)` from the source: arc-length
fraction of `point` along the polyline, using the last matching segment;
returns 0 when no segment contains the point. -/
noncomputable def get_position_along_wire (p : Pt) (w : List Pt) : ℝ :=
  match posAux p (segments w) 0 0 none with
  | (total, some (seg, segStart)) =>
      (segStart + Real.sqrt ((distSqQ p seg.1 : ℚ) : ℝ)) / total
  | (_, none) => 0

/-- Total polyline length of a wire. -/
noncomputable def totalLen (w : List Pt) : ℝ :=
  sumLen (segments w)

/-- Segment lengths are non-negative. -/
lemma segLen_nonneg (a b : Pt) : 0 ≤ segLen a b :=
  Real.sqrt_nonneg _

/-- The length of a degenerate point-to-itself segment is 0. -/
lemma segLen_self (a : Pt) : segLen a a = 0 := by
  unfold segLen
  rw [(distSqQ_eq_zero_iff a a).mpr rfl]
  simp

/-- Sums of segment lengths are non-negative. -/
lemma sumLen_nonneg (segs : List (Pt × Pt)) : 0 ≤ sumLen segs := by
  induction segs with
  | nil => simp [sumLen]
  | cons s rest ih =>
      have := segLen_nonneg s.1 s.2
      simp only [sumLen]
      linarith

/-- `sumLen` over an append splits as a sum. -/
lemma sumLen_append (l1 l2 : List (Pt × Pt)) :
    sumLen (l1 ++ l2) = sumLen l1 + sumLen l2 := by
  induction l1 with
  | nil => simp [sumLen]
  | cons s rest ih =>
      simp only [List.cons_append, sumLen, List.append_eq] at *
      rw [ih]; ring

/-- The accumulated `total_length` of the position loop is the starting value
plus the length of the remaining segments. -/
lemma posAux_fst (p : Pt) (segs : List (Pt × Pt)) :
    ∀ (t c : ℝ) (acc : Option ((Pt × Pt) × ℝ)),
      (posAux p segs t c acc).1 = t + sumLen segs := by
  induction segs with
  | nil => intro t c acc; simp [posAux, sumLen]
  | cons s rest ih =>
      intro t c acc
      simp only [posAux, sumLen, ih]
      ring

/-- If no remaining segment contains the point, the recorded target segment
is unchanged. -/
lemma posAux_snd_of_no_match (p : Pt) (segs : List (Pt × Pt))
    (h : ∀ s ∈ segs, point_on_line_segment p s.1 s.2 = false) :
    ∀ (t c : ℝ) (acc : Option ((Pt × Pt) × ℝ)), (posAux p segs t c acc).2 = acc := by
  induction segs with
  | nil => intro t c acc; simp [posAux]
  | cons s rest ih =>
      intro t c acc
      have hs : point_on_line_segment p s.1 s.2 = false := h s (List.mem_cons_self s rest)
      have hrest : ∀ s' ∈ rest, point_on_line_segment p s'.1 s'.2 = false :=
        fun s' hs' => h s' (List.mem_cons_of_mem s hs')
      simp only [posAux, hs, Bool.false_eq_true, if_false]
      exact ih hrest _ _ _

/-- When the point lies on segment `s` and on no segment after `s`, the loop
records `s` together with the accumulated length of the segments before it. -/
lemma posAux_snd_of_last_match (p : Pt) (l1 : List (Pt × Pt)) (s : Pt × Pt)
    (l2 : List (Pt × Pt))
    (hs : point_on_line_segment p s.1 s.2 = true)
    (h2 : ∀ s' ∈ l2, point_on_line_segment p s'.1 s'.2 = false) :
    ∀ (t c : ℝ) (acc : Option ((Pt × Pt) × ℝ)),
      (posAux p (l1 ++ s :: l2) t c acc).2 = some (s, c + sumLen l1) := by
  induction l1 with
  | nil =>
      intro t c acc
      simp only [List.nil_append, posAux, hs, if_true]
      rw [posAux_snd_of_no_match p l2 h2]
      simp [sumLen]
  | cons s0 rest ih =>
      intro t c acc
      simp only [List.cons_append, posAux, List.append_eq]
      rw [ih]
      rw [show sumLen (s0 :: rest) = segLen s0.1 s0.2 + sumLen rest from rfl, add_assoc]

/-- A wire's segment list has one entry fewer than its point list. -/
lemma segments_length (w : List Pt) : (segments w).length = w.length - 1 := by
  simp only [segments, List.length_zip, List.length_tail]
  omega

/-- The `i`-th segment of a wire joins its `i`-th and `(i+1)`-th points. -/
lemma segments_getElem (w : List Pt) (i : ℕ) (h : i < (segments w).length) :
    (segments w)[i] =
      (getElem w i (by rw [segments_length] at h; omega),
       getElem w (i + 1) (by rw [segments_length] at h; omega)) := by
  simp only [segments] at h ⊢
  rw [List.getElem_zip, List.getElem_tail]

/-- `sumLen` of a one-longer prefix adds the length of the next segment. -/
lemma sumLen_take_succ (l : List (Pt × Pt)) (i : ℕ) (h : i < l.length) :
    sumLen (l.take (i + 1)) = sumLen (l.take i) + segLen l[i].1 l[i].2 := by
  rw [← List.take_concat_get l i h, List.concat_eq_append, sumLen_append]
  simp [sumLen]

/-- Prefix sums of segment lengths are monotone. -/
lemma sumLen_take_mono (l : List (Pt × Pt)) {i j : ℕ} (hij : i ≤ j) :
    sumLen (l.take i) ≤ sumLen (l.take j) := by
  obtain ⟨k, rfl⟩ := Nat.exists_eq_add_of_le hij
  rw [List.take_add, sumLen_append]
  have := sumLen_nonneg (List.take k (List.drop i l))
  linarith

/-- Value of `get_position_along_wire` at the `i`-th point of a wire, when
that point lies on no segment with index greater than `i`: the arc-length
prefix of the first `i` segments divided by the total length. -/
lemma get_position_along_wire_vertex (w : List Pt) (i : ℕ)
    (hn : 2 ≤ w.length) (hi : i < w.length)
    (hfwd : ∀ j (hj : j < (segments w).length), i < j →
      point_on_line_segment (w.getD i (0, 0)) ((segments w)[j]).1 ((segments w)[j]).2 = false) :
    get_position_along_wire (w.getD i (0, 0)) w
      = sumLen ((segments w).take i) / totalLen w := by
  have hlen : (segments w).length = w.length - 1 := segments_length w
  have hp : w.getD i (0, 0) = w[i] := List.getD_eq_getElem w (0, 0) hi
  by_cases hcase : i < (segments w).length
  · -- interior vertex: its own segment `i` is the last match
    have hsplit : segments w =
        (segments w).take i ++ (segments w)[i] :: (segments w).drop (i + 1) := by
      rw [← List.drop_eq_getElem_cons hcase, List.take_append_drop]
    have hseg : (segments w)[i] =
        (getElem w i (by omega), getElem w (i + 1) (by rw [hlen] at hcase; omega)) :=
      segments_getElem w i hcase
    have hmatch : point_on_line_segment (w.getD i (0, 0))
        ((segments w)[i]).1 ((segments w)[i]).2 = true := by
      rw [hseg, hp]
      exact point_on_line_segment_start _ _
    have hnomatch : ∀ s' ∈ (segments w).drop (i + 1),
        point_on_line_segment (w.getD i (0, 0)) s'.1 s'.2 = false := by
      intro s' hs'
      rw [List.mem_iff_getElem] at hs'
      obtain ⟨k, hk, hks⟩ := hs'
      rw [List.getElem_drop] at hks
      subst hks
      exact hfwd (i + 1 + k) (by rw [List.length_drop] at hk; omega) (by omega)
    have hpair : posAux (w.getD i (0, 0)) (segments w) 0 0 none
        = (sumLen (segments w),
           some ((segments w)[i], sumLen ((segments w).take i))) := by
      have h1 : (posAux (w.getD i (0, 0)) (segments w) 0 0 none).1
          = sumLen (segments w) := by
        rw [posAux_fst]; ring
      have h2 : (posAux (w.getD i (0, 0)) (segments w) 0 0 none).2
          = some ((segments w)[i], sumLen ((segments w).take i)) := by
        conv_lhs => rw [hsplit]
        rw [posAux_snd_of_last_match _ _ _ _ hmatch hnomatch 0 0 none]
        norm_num
      rw [← h1, ← h2]
    unfold get_position_along_wire
    rw [hpair]
    simp only [totalLen]
    rw [hseg, hp]
    rw [(distSqQ_eq_zero_iff (getElem w i hi) (getElem w i hi)).mpr rfl]
    norm_num
  · -- last vertex: the final segment is the last match
    have hieq : i = w.length - 1 := by rw [hlen] at hcase; omega
    have hk : i - 1 < (segments w).length := by omega
    have hkw : i - 1 + 1 = i := by omega
    have hsplit : segments w =
        (segments w).take (i - 1) ++ (segments w)[i - 1] :: (segments w).drop i := by
      conv_lhs => rw [← List.take_append_drop (i - 1) (segments w)]
      rw [List.drop_eq_getElem_cons hk, hkw]
    have hdrop : (segments w).drop i = [] := by
      apply List.drop_eq_nil_of_le
      omega
    have hseg : (segments w)[i - 1] =
        (getElem w (i - 1) (by omega), getElem w i hi) := by
      rw [segments_getElem w (i - 1) hk]
      rw [Prod.mk.injEq]
      exact ⟨rfl, by simp only [hkw]⟩
    have hmatch : point_on_line_segment (w.getD i (0, 0))
        ((segments w)[i - 1]).1 ((segments w)[i - 1]).2 = true := by
      rw [hseg, hp]
      exact point_on_line_segment_end _ _
    have hnomatch : ∀ s' ∈ (segments w).drop i,
        point_on_line_segment (w.getD i (0, 0)) s'.1 s'.2 = false := by
      rw [hdrop]; intro s' hs'; cases hs'
    have hpair : posAux (w.getD i (0, 0)) (segments w) 0 0 none
        = (sumLen (segments w),
           some ((segments w)[i - 1], sumLen ((segments w).take (i - 1)))) := by
      have h1 : (posAux (w.getD i (0, 0)) (segments w) 0 0 none).1
          = sumLen (segments w) := by
        rw [posAux_fst]; ring
      have h2 : (posAux (w.getD i (0, 0)) (segments w) 0 0 none).2
          = some ((segments w)[i - 1], sumLen ((segments w).take (i - 1))) := by
        conv_lhs => rw [hsplit]
        rw [posAux_snd_of_last_match _ _ _ _ hmatch hnomatch 0 0 none]
        norm_num
      rw [← h1, ← h2]
    unfold get_position_along_wire
    rw [hpair]
    simp only [totalLen]
    have hsqrt : Real.sqrt ((distSqQ (w.getD i (0, 0)) ((segments w)[i - 1]).1 : ℚ) : ℝ)
        = segLen ((segments w)[i - 1]).1 ((segments w)[i - 1]).2 := by
      rw [hseg, hp]
      unfold segLen
      rfl
    rw [hsqrt]
    rw [show sumLen ((segments w).take (i - 1))
          + segLen ((segments w)[i - 1]).1 ((segments w)[i - 1]).2
        = sumLen ((segments w).take (i - 1 + 1)) from (sumLen_take_succ _ _ hk).symm]
    rw [hkw]

/-- A placed gate marker: type tag and diagram position (`Gate` dataclass). -/
structure Gate where
  type : String
  pos : Pt
deriving DecidableEq

/-- One operation emitted into the quantum circuit.  `measureAll` models the
engine's `measure_all()` call; the other constructors carry the qubit
(and classical-bit) indices passed by `app.py`. -/
inductive Op where
  | reset (q : ℕ)
  | h (q : ℕ)
  | x (q : ℕ)
  | y (q : ℕ)
  | z (q : ℕ)
  | cx (control target : ℕ)
  | measure (q c : ℕ)
  | measureAll
deriving DecidableEq

/-- `add_gate_to_circuit(gate_type, wire_idx)` from the source, returning the
list of operations it adds (empty when it adds none).  `numWires` is
`len(self.wires)`; the CNOT guard `wire_idx < len(self.wires) - 1` is the
Python comparison on (possibly negative) integers, hence stated over `ℤ`.
An unrecognised type falls through every branch and adds nothing. -/
def add_gate_to_circuit (gate_type : String) (wire_idx : ℕ) (numWires : ℕ) : List Op :=
  if gate_type = "H" then [Op.h wire_idx]
  else if gate_type = "X" then [Op.x wire_idx]
  else if gate_type = "Y" then [Op.y wire_idx]
  else if gate_type = "Z" then [Op.z wire_idx]
  else if gate_type = "CNOT" ∧ (wire_idx : ℤ) < (numWires : ℤ) - 1 then
    [Op.cx wire_idx (wire_idx + 1)]
  else []

/-- Whether the inner segment scan of the sensor loop fires: the `break`
after the first matching segment makes that scan emit at most one
measurement per wire, namely iff some segment of the wire contains the
sensor (`List.any` is exactly the first-match-then-stop loop). -/
def sensorOnWire (s : Pt) (w : List Pt) : Bool :=
  (segments w).any (fun seg => point_on_line_segment s seg.1 seg.2)

/-- The measurements one sensor adds, walking `enumerate(self.wires)` from
wire index `i`: the `break` in the source leaves the WIRE loop running, so
the sensor contributes one `measure(wire_idx, wire_idx)` for every wire it
lies on. -/
def measuresForSensor (s : Pt) : ℕ → List (List Pt) → List Op
  | _, [] => []
  | i, w :: rest =>
      (if sensorOnWire s w then [Op.measure i i] else []) ++ measuresForSensor s (i + 1) rest

/-- All measurements added by the sensor loop of `simulate_circuit`
(lines 314-320): sensors in order, each scanning all wires. -/
def sensor_measurements (sensors : List Pt) (wires : List (List Pt)) : List Op :=
  sensors.flatMap (fun s => measuresForSensor s 0 wires)

/-- The measurement section of `simulate_circuit`: the sensor loop followed
by the `measure_all()` fallback when no measurement was added
(`measurements_added` stays false exactly when the sensor loop emitted
nothing). -/
def measurementOps (sensors : List Pt) (wires : List (List Pt)) : List Op :=
  let ms := sensor_measurements sensors wires
  if ms = [] then [Op.measureAll] else ms

/-- Modelled from the spec: the measurement bindings (qubit, classical bit)
an operation performs on a register of width `n`.  The execution engine's
`measure_all` is out of repository scope (it is a call into the quantum
library); per the spec it measures every qubit into its corresponding
classical bit. -/
def measuredBits (n : ℕ) : Op → List (ℕ × ℕ)
  | Op.measure q c => [(q, c)]
  | Op.measureAll => (List.range n).map (fun i => (i, i))
  | _ => []

/-- The two endpoints scanned by the connectivity resolver:
`[wire.points[0], wire.points[-1]]`. -/
def wireEndpoints (w : List Pt) : List Pt :=
  [w.headD (0, 0), w.getLastD (0, 0)]

/-- Whether two wires have some coincident endpoint pair, using
`point_near_pos` with threshold 10 (the four endpoint combinations of the
source's nested loops). -/
def wiresTouch (w1 w2 : List Pt) : Bool :=
  (wireEndpoints w1).any (fun p1 =>
    (wireEndpoints w2).any (fun p2 => point_near_pos p1 p2 10))

/-- `find_wire_connections()` from the source: for wire `i`, the set of
other wire indices with a coincident endpoint. -/
def find_wire_connections (wires : List (List Pt)) (i : ℕ) : Finset ℕ :=
  (Finset.range wires.length).filter
    (fun j => j ≠ i ∧ wiresTouch (wires.getD i []) (wires.getD j []) = true)

/-- `point_near_pos` is symmetric in its two points. -/
lemma point_near_pos_comm (p q : Pt) (t : ℚ) :
    point_near_pos p q t = point_near_pos q p t := by
  unfold point_near_pos
  rw [distSqQ_comm]

/-- `wiresTouch` is symmetric. -/
lemma wiresTouch_comm (w1 w2 : List Pt) :
    wiresTouch w1 w2 = wiresTouch w2 w1 := by
  unfold wiresTouch
  rw [Bool.eq_iff_iff]
  simp only [List.any_eq_true]
  constructor
  · rintro ⟨p1, h1, p2, h2, hn⟩
    exact ⟨p2, h2, p1, h1, by rw [point_near_pos_comm]; exact hn⟩
  · rintro ⟨p2, h2, p1, h1, hn⟩
    exact ⟨p1, h1, p2, h2, by rw [point_near_pos_comm]; exact hn⟩

/-- The adjacency produced by the resolver is symmetric on valid indices. -/
lemma find_wire_connections_symm (wires : List (List Pt)) (i j : ℕ)
    (hi : i < wires.length) (hj : j < wires.length) :
    j ∈ find_wire_connections wires i ↔ i ∈ find_wire_connections wires j := by
  unfold find_wire_connections
  simp only [Finset.mem_filter, Finset.mem_range]
  constructor
  · rintro ⟨-, hne, ht⟩
    exact ⟨hi, hne.symm, by rw [wiresTouch_comm]; exact ht⟩
  · rintro ⟨-, hne, ht⟩
    exact ⟨hj, hne.symm, by rw [wiresTouch_comm]; exact ht⟩

/-- The adjacency sets only contain valid wire indices. -/
lemma find_wire_connections_subset (wires : List (List Pt)) (i : ℕ) :
    find_wire_connections wires i ⊆ Finset.range wires.length := by
  unfold find_wire_connections
  exact Finset.filter_subset _ _

/-- The stack-based reachability search of `get_connected_wires`, with an
explicit fuel parameter standing for the `while stack:` loop (the fuel is
chosen large enough that the stack always empties first; see
`dfsAux_spec`).  The `for neighbor in connections[current]` iteration over a
Python set is modelled as iteration in ascending order; `visits` records the
nodes popped from the stack, i.e. the nodes the search visits. -/
def dfsAux (adj : ℕ → Finset ℕ) : ℕ → Finset ℕ → List ℕ → List ℕ → Finset ℕ × List ℕ
  | 0, conn, _, visits => (conn, visits)
  | _ + 1, conn, [], visits => (conn, visits)
  | fuel + 1, conn, cur :: stack, visits =>
      let fresh := ((adj cur).sort (· ≤ ·)).filter (fun x => decide (x ∉ conn))
      dfsAux adj fuel (conn ∪ fresh.toFinset) (fresh.reverse ++ stack) (visits ++ [cur])

/-- `get_connected_wires(start_wire, connections)` from the source: the
reachable set, together with the list of visited nodes.  `n` bounds the
node universe (the wire count); `n + 2` units of fuel always outlast the
stack. -/
def get_connected_wires (n : ℕ) (adj : ℕ → Finset ℕ) (start : ℕ) : Finset ℕ × List ℕ :=
  dfsAux adj (n + 2) {start} [start] []

/-- Invariant proof for the reachability search: from a consistent state the
search returns a superset of the current set that is closed under the
adjacency, and the list of visited nodes has no duplicates (each node is
visited at most once). -/
lemma dfsAux_spec (adj : ℕ → Finset ℕ) (n : ℕ) (hadj : ∀ x, adj x ⊆ Finset.range n) :
    ∀ (fuel : ℕ) (conn : Finset ℕ) (stack visits : List ℕ),
      conn ⊆ Finset.range n →
      (∀ x ∈ stack, x ∈ conn) →
      (∀ x ∈ visits, x ∈ conn) →
      (visits ++ stack).Nodup →
      stack.length + n ≤ fuel + conn.card →
      (∀ x ∈ conn, x ∈ stack ∨ adj x ⊆ conn) →
      conn ⊆ (dfsAux adj fuel conn stack visits).1 ∧
      (∀ x ∈ (dfsAux adj fuel conn stack visits).1,
        adj x ⊆ (dfsAux adj fuel conn stack visits).1) ∧
      (dfsAux adj fuel conn stack visits).2.Nodup := by
  intro fuel
  induction fuel with
  | zero =>
      intro conn stack visits hconn hstack hvisits hnodup hmeasure hclosure
      have hcard : conn.card ≤ n := by
        have := Finset.card_le_card hconn
        simpa [Finset.card_range] using this
      have hstack0 : stack = [] := by
        rw [← List.length_eq_zero]
        omega
      subst hstack0
      simp only [dfsAux]
      refine ⟨Finset.Subset.refl _, ?_, ?_⟩
      · intro x hx
        rcases hclosure x hx with h | h
        · cases h
        · exact h
      · simpa using hnodup
  | succ fuel ih =>
      intro conn stack visits hconn hstack hvisits hnodup hmeasure hclosure
      cases stack with
      | nil =>
          simp only [dfsAux]
          refine ⟨Finset.Subset.refl _, ?_, ?_⟩
          · intro x hx
            rcases hclosure x hx with h | h
            · cases h
            · exact h
          · simpa using hnodup
      | cons cur stack =>
          have hcur : cur ∈ conn := hstack cur (List.mem_cons_self _ _)
          have hstackTail : ∀ x ∈ stack, x ∈ conn :=
            fun x hx => hstack x (List.mem_cons_of_mem _ hx)
          set F : List ℕ :=
            ((adj cur).sort (· ≤ ·)).filter (fun x => decide (x ∉ conn)) with hF
          have hFmem : ∀ x, x ∈ F ↔ x ∈ adj cur ∧ x ∉ conn := by
            intro x
            rw [hF, List.mem_filter, Finset.mem_sort, decide_eq_true_eq]
          have hFnodup : F.Nodup :=
            List.Nodup.filter _ (Finset.sort_nodup _ _)
          have hFsub : F.toFinset ⊆ Finset.range n := by
            intro x hx
            rw [List.mem_toFinset] at hx
            exact hadj cur ((hFmem x).mp hx).1
          have hFdisj : Disjoint conn F.toFinset := by
            rw [Finset.disjoint_left]
            intro x hx hx'
            rw [List.mem_toFinset] at hx'
            exact ((hFmem x).mp hx').2 hx
          have hcardU : (conn ∪ F.toFinset).card = conn.card + F.length := by
            rw [Finset.card_union_of_disjoint hFdisj, List.toFinset_card_of_nodup hFnodup]
          -- decompose the no-duplicates hypothesis
          rw [List.nodup_append] at hnodup
          obtain ⟨hvnd, hcsnd, hvdisj⟩ := hnodup
          rw [List.nodup_cons] at hcsnd
          obtain ⟨hcurstack, hsnd⟩ := hcsnd
          simp only [dfsAux]
          obtain ⟨h1, h2, h3⟩ :=
            ih (conn ∪ F.toFinset) (F.reverse ++ stack) (visits ++ [cur])
              (Finset.union_subset hconn hFsub)
              (by
                intro x hx
                rcases List.mem_append.mp hx with hx | hx
                · exact Finset.mem_union_right _ (List.mem_toFinset.mpr (List.mem_reverse.mp hx))
                · exact Finset.mem_union_left _ (hstackTail x hx))
              (by
                intro x hx
                rcases List.mem_append.mp hx with hx | hx
                · exact Finset.mem_union_left _ (hvisits x hx)
                · rcases List.mem_singleton.mp hx with rfl
                  exact Finset.mem_union_left _ hcur)
              (by
                rw [List.nodup_append]
                refine ⟨?_, ?_, ?_⟩
                · rw [List.nodup_append]
                  refine ⟨hvnd, List.nodup_singleton _, ?_⟩
                  rw [List.disjoint_left]
                  intro a ha ha'
                  rcases List.mem_singleton.mp ha' with rfl
                  exact (List.disjoint_left.mp hvdisj ha) (List.mem_cons_self _ _)
                · rw [List.nodup_append]
                  refine ⟨List.nodup_reverse.mpr hFnodup, hsnd, ?_⟩
                  rw [List.disjoint_left]
                  intro a ha ha'
                  exact ((hFmem a).mp (List.mem_reverse.mp ha)).2 (hstackTail a ha')
                · rw [List.disjoint_left]
                  intro a ha ha'
                  have haconn : a ∈ conn := by
                    rcases List.mem_append.mp ha with h | h
                    · exact hvisits a h
                    · rcases List.mem_singleton.mp h with rfl
                      exact hcur
                  rcases List.mem_append.mp ha' with h | h
                  · exact ((hFmem a).mp (List.mem_reverse.mp h)).2 haconn
                  · rcases List.mem_append.mp ha with hv | hc
                    · exact (List.disjoint_left.mp hvdisj hv) (List.mem_cons_of_mem _ h)
                    · rcases List.mem_singleton.mp hc with rfl
                      exact hcurstack h)
              (by
                rw [List.length_append, List.length_reverse, hcardU]
                simp only [List.length_cons] at hmeasure
                omega)
              (by
                intro x hx
                rcases Finset.mem_union.mp hx with hx | hx
                · rcases hclosure x hx with hx' | hx'
                  · rcases List.mem_cons.mp hx' with rfl | hx'
                    · right
                      intro y hy
                      by_cases hyc : y ∈ conn
                      · exact Finset.mem_union_left _ hyc
                      · refine Finset.mem_union_right _ (List.mem_toFinset.mpr ?_)
                        exact (hFmem y).mpr ⟨hy, hyc⟩
                    · left
                      exact List.mem_append.mpr (Or.inr hx')
                  · right
                    exact hx'.trans Finset.subset_union_left
                · left
                  exact List.mem_append.mpr (Or.inl (List.mem_reverse.mpr (List.mem_toFinset.mp hx))))
          exact ⟨Finset.subset_union_left.trans h1, h2, h3⟩

/-- Specification of `get_connected_wires` on a valid start index: the
result contains the start, is closed under the adjacency, and the visit
list has no duplicates. -/
lemma get_connected_wires_spec (n : ℕ) (adj : ℕ → Finset ℕ)
    (hadj : ∀ x, adj x ⊆ Finset.range n) (start : ℕ) (hstart : start < n) :
    start ∈ (get_connected_wires n adj start).1 ∧
    (∀ x ∈ (get_connected_wires n adj start).1,
      adj x ⊆ (get_connected_wires n adj start).1) ∧
    (get_connected_wires n adj start).2.Nodup := by
  have h := dfsAux_spec adj n hadj (n + 2) {start} [start] []
    (by
      rw [Finset.singleton_subset_iff, Finset.mem_range]
      exact hstart)
    (by
      intro x hx
      rcases List.mem_singleton.mp hx with rfl
      exact Finset.mem_singleton_self _)
    (by intro x hx; cases hx)
    (by simp)
    (by
      rw [List.length_singleton, Finset.card_singleton]
      omega)
    (by
      intro x hx
      rcases Finset.mem_singleton.mp hx with rfl
      exact Or.inl (List.mem_singleton_self _))
  unfold get_connected_wires
  exact ⟨h.1 (Finset.mem_singleton_self _), h.2.1, h.2.2⟩

/-- The gate-collection loop for one wire (`simulate_circuit` lines
298-304): every gate is tested against every wire segment with no break, so
a gate contributes one `(gate, position)` entry per matching segment, each
entry carrying `get_position_along_wire(gate.pos, wire)`. -/
noncomputable def wire_gates (gates : List Gate) (w : List Pt) : List (Gate × ℝ) :=
  gates.flatMap (fun g =>
    (segments w).filterMap (fun seg =>
      if point_on_line_segment g.pos seg.1 seg.2 then
        some (g, get_position_along_wire g.pos w)
      else none))

/-- `wire_gates.sort(key=lambda x: x[1])`: a stable ascending sort on the
fractional position (Python's list.sort is stable; so is merge sort). -/
noncomputable def sortGates (l : List (Gate × ℝ)) : List (Gate × ℝ) :=
  l.mergeSort (fun a b => decide (a.2 ≤ b.2))

/-- The operations emitted for one wire: its sorted gates passed to
`add_gate_to_circuit` in order. -/
noncomputable def wireOps (gates : List Gate) (w : List Pt) (idx numWires : ℕ) : List Op :=
  (sortGates (wire_gates gates w)).flatMap
    (fun gp => add_gate_to_circuit gp.1.type idx numWires)

/-- The operations emitted while processing one connected group
(`for connected_wire_idx in connected_group:`): for each wire index of the
group in ascending order, a reset followed by that wire's gate
operations. -/
noncomputable def processGroup (wires : List (List Pt)) (gates : List Gate)
    (numWires : ℕ) (grp : Finset ℕ) : List Op :=
  (grp.sort (· ≤ ·)).flatMap
    (fun k => Op.reset k :: wireOps gates (wires.getD k []) k numWires)

/-- The outer wire loop of `simulate_circuit` (lines 287-311): wires in
collection order, skipping those already processed; each unprocessed seed
resolves its connected group, emits the group's operations, and marks every
group member processed. -/
noncomputable def compileAux (wires : List (List Pt)) (gates : List Gate)
    (adj : ℕ → Finset ℕ) (numWires : ℕ) : List ℕ → Finset ℕ → List Op
  | [], _ => []
  | i :: rest, processed =>
      if i ∈ processed then compileAux wires gates adj numWires rest processed
      else
        processGroup wires gates numWires (get_connected_wires numWires adj i).1 ++
          compileAux wires gates adj numWires rest
            (processed ∪ (get_connected_wires numWires adj i).1)

/-- The full gate-compilation section of `simulate_circuit`. -/
noncomputable def compile_ops (wires : List (List Pt)) (gates : List Gate) : List Op :=
  compileAux wires gates (find_wire_connections wires) wires.length
    (List.range wires.length) ∅

/-- Register width allocated by `initialize_circuit`: `max(len(wires), 1)`,
for both the quantum and the classical register. -/
def registerWidth (numWires : ℕ) : ℕ :=
  max numWires 1

/-- The operation stream of one `simulate_circuit` call: nothing when there
are no wires (early return), otherwise compilation followed by the
measurement section. -/
noncomputable def simOps (wires : List (List Pt)) (gates : List Gate)
    (sensors : List Pt) : List Op :=
  if wires = [] then []
  else compile_ops wires gates ++ measurementOps sensors wires

/-- The processed measurement dictionary: the set of keys created so far
(`"Sensor k"` entries, identified by the bit position `k`) together with the
accumulated `(prob of the character 0, prob of the character 1)` pair for
each key; keys never touched hold `(0, 0)`. -/
structure ProcResult where
  domain : Finset ℕ
  val : ℕ → ℚ × ℚ

/-- The empty dictionary `{}`. -/
def emptyProc : ProcResult :=
  ⟨∅, fun _ => (0, 0)⟩

/-- One step of the inner loop of `process_measurement_results`: create the
`"Sensor k"` entry if absent, then add the probability to the counter of the
bit character when it is one of `0`/`1` (any other character only creates
the entry). -/
def bucketAdd (r : ProcResult) (k : ℕ) (c : Char) (prob : ℚ) : ProcResult where
  domain := insert k r.domain
  val := fun j =>
    if j = k then
      if c = '0' then ((r.val k).1 + prob, (r.val k).2)
      else if c = '1' then ((r.val k).1, (r.val k).2 + prob)
      else r.val k
    else r.val j

/-- The `for sensor_idx, bit in enumerate(bits)` loop over one bitstring,
starting at position `k`. -/
def procBits (prob : ℚ) : ℕ → List Char → ProcResult → ProcResult
  | _, [], r => r
  | k, c :: rest, r => procBits prob (k + 1) rest (bucketAdd r k c prob)

/-- `"".join(bitstring.split())`: the bitstring with all whitespace
removed. -/
def stripWS (s : List Char) : List Char :=
  s.filter (fun c => !c.isWhitespace)

/-- `total_shots = sum(counts.values())`. -/
def totalShots (counts : List (List Char × ℕ)) : ℕ :=
  (counts.map (fun bc => bc.2)).sum

/-- `process_measurement_results(counts)` from the source: returns the
empty dictionary when `counts` is empty or the total is zero, otherwise
accumulates `count / total_shots` into the per-position buckets of every
bitstring.  The `counts` dictionary is modelled as its item list in
iteration order. -/
def process_measurement_results (counts : List (List Char × ℕ)) : ProcResult :=
  if counts = [] ∨ totalShots counts = 0 then emptyProc
  else
    counts.foldl
      (fun r bc =>
        procBits ((bc.2 : ℚ) / (totalShots counts : ℚ)) 0 (stripWS bc.1) r)
      emptyProc

/-- The user-visible state touched by the simulate operation: the cached
`SensorStatistics` (`self.sensor_data`), the circuit-info/status text
(`self.circuit_info`) and the sensor report text (`self.sensor_text`). -/
structure AppState where
  sensor_data : ProcResult
  circuit_info : String
  sensor_text : String

/-- The state effects of the successive steps of the `try:` body of
`simulate_circuit`, in program order.  `render` is the ASCII circuit
rendering written to the circuit-info area, `renderText` the formatting of
the sensor report (display glue external to the compiler core), `counts`
the counts returned by the execution engine.  Steps 0-3 (circuit
initialisation, gate compilation, measurement attachment, printing and the
temp-file/terminal side effects) do not touch this state; step 4 writes the
circuit rendering; step 5 is the engine run returning `counts`; step 6
stores the processed `SensorStatistics`;  step 7 rewrites the sensor report
from them. -/
def simSteps (renderText : ProcResult → String) (render : String)
    (counts : List (List Char × ℕ)) : List (AppState → AppState) :=
  [id, id, id, id,
   fun s => { s with circuit_info := render },
   id,
   fun s => { s with sensor_data := process_measurement_results counts },
   fun s => { s with sensor_text := renderText (process_measurement_results counts) }]

/-- One `simulate_circuit` call, seen through its effect on the user-visible
state.  `wiresEmpty` models the `if not self.wires: return` guard.
`raiseAt = some k` injects an exception out of the external call made at
step `k`: the effects of the earlier steps remain, the failing step has no
effect, and the `except` handler writes the error message to the
circuit-info area.  `raiseAt = none` is the successful run. -/
def simulate_cycle (renderText : ProcResult → String) (render errMsg : String)
    (counts : List (List Char × ℕ)) (wiresEmpty : Bool) (raiseAt : Option ℕ)
    (s0 : AppState) : AppState :=
  if wiresEmpty then s0
  else
    match raiseAt with
    | none => (simSteps renderText render counts).foldl (fun s f => f s) s0
    | some k =>
        { ((simSteps renderText render counts).take k).foldl (fun s f => f s) s0 with
          circuit_info := errMsg }

/-- C10: The distance function is total and never returns +infinity: for all
inputs, if the two segment endpoints are equal it returns the Euclidean
distance to that point, and otherwise the zero-denominator branch returning
+infinity is unreachable (the denominator is zero only when the endpoints
coincide, which is handled first), so the result is always a finite
non-negative number. -/
theorem c10_distance_total (p a b : Pt) :
    ∃ r : ℝ, point_to_line_distance p a b = some r ∧ 0 ≤ r ∧
      (a = b → r = Real.sqrt ((distSqQ p a : ℚ) : ℝ)) := by
  refine ⟨Real.sqrt ((distToSegSq p a b : ℚ) : ℝ), point_to_line_distance_eq p a b,
    Real.sqrt_nonneg _, ?_⟩
  intro hab
  have : distToSegSq p a b = distSqQ p a := by
    unfold distToSegSq
    rw [if_pos hab]
  rw [this]

/-- Witness for C10 at a concrete degenerate segment. -/
theorem c10_distance_total_witness :
    ∃ r : ℝ, point_to_line_distance (0, 0) (1, 0) (1, 0) = some r ∧ 0 ≤ r ∧
      ((1, 0) = ((1, 0) : Pt) → r = Real.sqrt ((distSqQ (0, 0) (1, 0) : ℚ) : ℝ)) :=
  c10_distance_total (0, 0) (1, 0) (1, 0)

/-- C8: a CNOT compiled on the last register index is silently skipped (no
operation is emitted), while a CNOT on a non-last index emits exactly one
two-qubit operation with control that index and target the next index. -/
theorem c8_cnot_last_skipped (numWires idx : ℕ) :
    (1 ≤ numWires → idx = numWires - 1 →
      add_gate_to_circuit "CNOT" idx numWires = []) ∧
    (idx + 1 < numWires →
      add_gate_to_circuit "CNOT" idx numWires = [Op.cx idx (idx + 1)]) := by
  constructor
  · intro h1 hidx
    unfold add_gate_to_circuit
    have hguard : ¬("CNOT" = "H") := by decide
    have hguard2 : ¬("CNOT" = "X") := by decide
    have hguard3 : ¬("CNOT" = "Y") := by decide
    have hguard4 : ¬("CNOT" = "Z") := by decide
    rw [if_neg hguard, if_neg hguard2, if_neg hguard3, if_neg hguard4, if_neg]
    rintro ⟨-, hlt⟩
    subst hidx
    have : ((numWires - 1 : ℕ) : ℤ) = (numWires : ℤ) - 1 := by
      omega
    omega
  · intro hlt
    unfold add_gate_to_circuit
    have hguard : ¬("CNOT" = "H") := by decide
    have hguard2 : ¬("CNOT" = "X") := by decide
    have hguard3 : ¬("CNOT" = "Y") := by decide
    have hguard4 : ¬("CNOT" = "Z") := by decide
    rw [if_neg hguard, if_neg hguard2, if_neg hguard3, if_neg hguard4, if_pos]
    exact ⟨rfl, by omega⟩

/-- Witness for C8 on a two-wire register: skipped on wire 1, emitted on
wire 0. -/
theorem c8_cnot_last_skipped_witness :
    add_gate_to_circuit "CNOT" 1 2 = [] ∧
    add_gate_to_circuit "CNOT" 0 2 = [Op.cx 0 1] :=
  ⟨(c8_cnot_last_skipped 2 1).1 (by norm_num) (by norm_num),
   (c8_cnot_last_skipped 2 0).2 (by norm_num)⟩

/-- Number of `measure i i` operations one sensor emits while scanning the
wire list from index `k`: one when the sensor lies on wire `i` (scanned,
i.e. `k ≤ i < k + length`), zero otherwise. -/
lemma measuresForSensor_count (s : Pt) (wires : List (List Pt)) :
    ∀ (k i : ℕ),
      (measuresForSensor s k wires).count (Op.measure i i)
        = if k ≤ i ∧ i - k < wires.length then
            (if sensorOnWire s (wires.getD (i - k) []) then 1 else 0)
          else 0 := by
  induction wires with
  | nil =>
      intro k i
      simp [measuresForSensor]
  | cons w rest ih =>
      intro k i
      simp only [measuresForSensor, List.count_append]
      by_cases hik : i = k
      · subst hik
        have h1 : (if sensorOnWire s w then [Op.measure i i] else []).count (Op.measure i i)
            = if sensorOnWire s w then 1 else 0 := by
          by_cases hw : sensorOnWire s w <;> simp [hw]
        have h2 : (measuresForSensor s (i + 1) rest).count (Op.measure i i) = 0 := by
          rw [ih]
          rw [if_neg]
          rintro ⟨hle, -⟩
          omega
        rw [h1, h2]
        have hcond : i ≤ i ∧ i - i < (w :: rest).length := by
          simp
        rw [if_pos hcond]
        simp
      · have h1 : (if sensorOnWire s w then [Op.measure k k] else []).count (Op.measure i i)
            = 0 := by
          by_cases hw : sensorOnWire s w <;>
            simp [hw, List.count_singleton', beq_iff_eq, Op.measure.injEq, Ne.symm hik]
        rw [h1, ih, zero_add]
        by_cases hcond : k + 1 ≤ i ∧ i - (k + 1) < rest.length
        · rw [if_pos hcond,
            if_pos (by simp only [List.length_cons]; omega : k ≤ i ∧ i - k < (w :: rest).length)]
          have hix : i - k = (i - (k + 1)) + 1 := by omega
          rw [hix, List.getD_cons_succ]
        · rw [if_neg hcond, if_neg]
          rintro ⟨hle, hlt⟩
          simp only [List.length_cons] at hlt
          omega

/-- Every operation one sensor emits is a diagonal measurement of a wire it
lies on. -/
lemma measuresForSensor_mem (s : Pt) :
    ∀ (wires : List (List Pt)) (k : ℕ) (op : Op),
      op ∈ measuresForSensor s k wires →
      ∃ t, t < wires.length ∧ op = Op.measure (k + t) (k + t) ∧
        sensorOnWire s (wires.getD t []) = true := by
  intro wires
  induction wires with
  | nil => intro k op hop; simp [measuresForSensor] at hop
  | cons w rest ih =>
      intro k op hop
      simp only [measuresForSensor, List.mem_append] at hop
      rcases hop with hop | hop
      · by_cases hw : sensorOnWire s w
        · rw [if_pos hw] at hop
          rcases List.mem_singleton.mp hop with rfl
          exact ⟨0, by simp, by simp, by simpa using hw⟩
        · rw [if_neg hw] at hop
          cases hop
      · obtain ⟨t, ht, hop, hw⟩ := ih (k + 1) op hop
        exact ⟨t + 1, by simpa using ht, by rw [hop]; congr 1 <;> omega,
          by simpa [List.getD_cons_succ] using hw⟩

/-- The sensor loop is empty exactly when no sensor lies on any wire. -/
lemma measuresForSensor_eq_nil_iff (s : Pt) :
    ∀ (wires : List (List Pt)) (k : ℕ),
      measuresForSensor s k wires = [] ↔ ∀ w ∈ wires, sensorOnWire s w = false := by
  intro wires
  induction wires with
  | nil => intro k; simp [measuresForSensor]
  | cons w rest ih =>
      intro k
      simp only [measuresForSensor, List.append_eq_nil]
      constructor
      · rintro ⟨h1, h2⟩
        intro w' hw'
        rcases List.mem_cons.mp hw' with rfl | hw'
        · by_cases hw : sensorOnWire s w'
          · rw [if_pos hw] at h1; cases h1
          · simpa using hw
        · exact ((ih (k + 1)).mp h2) w' hw'
      · intro h
        refine ⟨?_, (ih (k + 1)).mpr (fun w' hw' => h w' (List.mem_cons_of_mem _ hw'))⟩
        rw [if_neg]
        rw [h w (List.mem_cons_self _ _)]
        exact Bool.false_ne_true

/-- Counting over the whole sensor loop: wire `i` is measured once per
sensor lying on it. -/
lemma sensor_measurements_count (sensors : List Pt) (wires : List (List Pt))
    (i : ℕ) (hi : i < wires.length) :
    (sensor_measurements sensors wires).count (Op.measure i i)
      = (sensors.filter (fun s => sensorOnWire s (wires.getD i []))).length := by
  induction sensors with
  | nil => simp [sensor_measurements]
  | cons s rest ih =>
      simp only [sensor_measurements, List.flatMap_cons, List.count_append] at ih ⊢
      rw [ih, measuresForSensor_count]
      rw [if_pos (by omega : 0 ≤ i ∧ i - 0 < wires.length)]
      simp only [Nat.sub_zero]
      by_cases hw : sensorOnWire s (wires.getD i [])
      · rw [if_pos hw, List.filter_cons_of_pos (by simpa using hw)]
        simp [Nat.add_comm]
      · rw [if_neg hw, List.filter_cons_of_neg (by simpa using hw)]
        simp

/-- Every operation the sensor loop emits is a diagonal measurement of a
wire some sensor lies on. -/
lemma sensor_measurements_mem (sensors : List Pt) (wires : List (List Pt)) (op : Op)
    (hop : op ∈ sensor_measurements sensors wires) :
    ∃ j, j < wires.length ∧ op = Op.measure j j ∧
      ∃ s ∈ sensors, sensorOnWire s (wires.getD j []) = true := by
  rw [sensor_measurements, List.mem_flatMap] at hop
  obtain ⟨s, hs, hop⟩ := hop
  obtain ⟨t, ht, hopeq, hw⟩ := measuresForSensor_mem s wires 0 op hop
  exact ⟨t, ht, by simpa using hopeq, s, hs, hw⟩

/-- C1 (amended): for every sensor the compiler scans wires in collection
order and emits exactly one measurement per wire the sensor lies on — the
`break` only ends the segment scan of the current wire, so a sensor touching
several wires yields one measurement per touched wire, each measuring that
wire's qubit into the same-indexed classical bit. -/
theorem c1_sensor_measurement_per_wire (sensors : List Pt) (wires : List (List Pt))
    (i : ℕ) (hi : i < wires.length) :
    (sensor_measurements sensors wires).count (Op.measure i i)
      = (sensors.filter (fun s => sensorOnWire s (wires.getD i []))).length ∧
    (∀ op ∈ sensor_measurements sensors wires,
      ∃ j, j < wires.length ∧ op = Op.measure j j ∧
        ∃ s ∈ sensors, sensorOnWire s (wires.getD j []) = true) :=
  ⟨sensor_measurements_count sensors wires i hi,
   fun op hop => sensor_measurements_mem sensors wires op hop⟩

/-- The origin sensor lies on the horizontal example wire. -/
lemma sensor_on_wire_ex1 : sensorOnWire (0, 0) [(0, 0), (20, 0)] = true := by
  simp only [sensorOnWire, segments, List.tail_cons, List.zip_cons_cons,
    List.zip_nil_right, List.any_cons, List.any_nil]
  simp only [point_on_line_segment, distToSegSq, distSqQ, Bool.and_eq_true,
    decide_eq_true_eq]
  norm_num

/-- The origin sensor lies on the vertical example wire. -/
lemma sensor_on_wire_ex2 : sensorOnWire (0, 0) [(0, 0), (0, 20)] = true := by
  simp only [sensorOnWire, segments, List.tail_cons, List.zip_cons_cons,
    List.zip_nil_right, List.any_cons, List.any_nil]
  simp only [point_on_line_segment, distToSegSq, distSqQ, Bool.and_eq_true,
    decide_eq_true_eq]
  norm_num

/-- Witness for C1 (amended): one sensor on one wire yields exactly one
measurement of that wire. -/
theorem c1_sensor_measurement_per_wire_witness :
    (sensor_measurements [((0 : ℚ), (0 : ℚ))]
      [[(0, 0), (20, 0)], [(0, 0), (0, 20)]]).count (Op.measure 0 0) = 1 :=
  (c1_sensor_measurement_per_wire [(0, 0)] [[(0, 0), (20, 0)], [(0, 0), (0, 20)]]
      0 (by norm_num)).1.trans
    (by
      simp only [List.getD_cons_zero]
      rw [List.filter_cons_of_pos (by rw [sensor_on_wire_ex1]), List.filter_nil]
      rfl)

/-- Counterexample to C1 as stated: a sensor lying on two wires produces a
measurement for each of them (the wire scan is not stopped after the first
match), not exactly one. -/
theorem c1_counterexample :
    sensorOnWire (0, 0) [(0, 0), (20, 0)] = true ∧
    sensorOnWire (0, 0) [(0, 0), (0, 20)] = true ∧
    sensor_measurements [((0 : ℚ), (0 : ℚ))] [[(0, 0), (20, 0)], [(0, 0), (0, 20)]]
      = [Op.measure 0 0, Op.measure 1 1] := by
  refine ⟨sensor_on_wire_ex1, sensor_on_wire_ex2, ?_⟩
  simp only [sensor_measurements, List.flatMap_cons, List.flatMap_nil, List.append_nil]
  simp only [measuresForSensor]
  rw [sensor_on_wire_ex1, sensor_on_wire_ex2]
  simp

/-- C4: when no sensor intersects any wire the compiler falls back to
`measure_all` (measuring every qubit of the register allocated by
`initialize_circuit` into its same-indexed classical bit, per the spec's
reading of the engine call); when some sensor intersects a wire, exactly the
intersected wires are measured and no fallback is emitted. -/
theorem c4_measurement_fallback (sensors : List Pt) (wires : List (List Pt)) :
    (sensor_measurements sensors wires = [] ↔
      ∀ s ∈ sensors, ∀ w ∈ wires, sensorOnWire s w = false) ∧
    (sensor_measurements sensors wires = [] →
      measurementOps sensors wires = [Op.measureAll] ∧
      (measurementOps sensors wires).flatMap (measuredBits (registerWidth wires.length))
        = (List.range (registerWidth wires.length)).map (fun i => (i, i))) ∧
    (sensor_measurements sensors wires ≠ [] →
      measurementOps sensors wires = sensor_measurements sensors wires ∧
      Op.measureAll ∉ measurementOps sensors wires ∧
      ∀ i, (Op.measure i i ∈ measurementOps sensors wires ↔
        (i < wires.length ∧ ∃ s ∈ sensors, sensorOnWire s (wires.getD i []) = true))) := by
  refine ⟨?_, ?_, ?_⟩
  · rw [sensor_measurements, List.flatMap_eq_nil_iff]
    constructor
    · intro h s hs
      exact (measuresForSensor_eq_nil_iff s wires 0).mp (h s hs)
    · intro h s hs
      exact (measuresForSensor_eq_nil_iff s wires 0).mpr (h s hs)
  · intro hnil
    rw [measurementOps, hnil]
    simp [measuredBits]
  · intro hne
    have hops : measurementOps sensors wires = sensor_measurements sensors wires := by
      rw [measurementOps, if_neg hne]
    refine ⟨hops, ?_, ?_⟩
    · rw [hops]
      intro hmem
      obtain ⟨j, -, hops', -⟩ := sensor_measurements_mem sensors wires _ hmem
      cases hops'
    · intro i
      rw [hops]
      constructor
      · intro hmem
        obtain ⟨j, hj, hopeq, s, hs, hw⟩ := sensor_measurements_mem sensors wires _ hmem
        injection hopeq with h1 h2
        subst h1
        exact ⟨hj, s, hs, hw⟩
      · rintro ⟨hi, s, hs, hw⟩
        apply List.count_pos_iff.mp
        rw [sensor_measurements_count sensors wires i hi]
        have : s ∈ sensors.filter (fun s => sensorOnWire s (wires.getD i [])) :=
          List.mem_filter.mpr ⟨hs, by simpa using hw⟩
        exact List.length_pos.mpr (fun hempty => by rw [hempty] at this; cases this)

/-- Witness for C4: with no sensors, the fallback measurement is emitted and
covers every register index. -/
theorem c4_measurement_fallback_witness :
    measurementOps [] [[((0 : ℚ), (0 : ℚ)), (20, 0)]] = [Op.measureAll] ∧
    (measurementOps [] [[((0 : ℚ), (0 : ℚ)), (20, 0)]]).flatMap
        (measuredBits (registerWidth 1))
      = (List.range (registerWidth 1)).map (fun i => (i, i)) :=
  (c4_measurement_fallback [] [[(0, 0), (20, 0)]]).2.1 rfl

/-- The first and second example wires share the endpoint `(100, 0)`. -/
lemma wires_touch_ex1 :
    wiresTouch [((0 : ℚ), (0 : ℚ)), (100, 0)] [(100, 0), (200, 0)] = true := by
  simp only [wiresTouch, wireEndpoints, List.headD_cons, List.getLastD_cons,
    List.any_cons, List.any_nil, point_near_pos, distSqQ, Bool.or_eq_true,
    decide_eq_true_eq]
  norm_num

/-- The second and third example wires share the endpoint `(200, 0)`. -/
lemma wires_touch_ex2 :
    wiresTouch [((100 : ℚ), (0 : ℚ)), (200, 0)] [(200, 0), (300, 0)] = true := by
  simp only [wiresTouch, wireEndpoints, List.headD_cons, List.getLastD_cons,
    List.any_cons, List.any_nil, point_near_pos, distSqQ, Bool.or_eq_true,
    decide_eq_true_eq]
  norm_num

/-- C7: the endpoint-coincidence adjacency is symmetric, the connected-group
computation is transitively closed (a chain A-B, B-C puts C into A's group),
and the reachability search visits each node at most once. -/
theorem c7_connectivity_transitive (wires : List (List Pt)) (A B C : ℕ)
    (hA : A < wires.length) (hB : B < wires.length) (hC : C < wires.length)
    (hAB : A ≠ B) (hBC : B ≠ C)
    (htouchAB : wiresTouch (wires.getD A []) (wires.getD B []) = true)
    (htouchBC : wiresTouch (wires.getD B []) (wires.getD C []) = true) :
    (∀ i j, i < wires.length → j < wires.length →
      (j ∈ find_wire_connections wires i ↔ i ∈ find_wire_connections wires j)) ∧
    C ∈ (get_connected_wires wires.length (find_wire_connections wires) A).1 ∧
    (get_connected_wires wires.length (find_wire_connections wires) A).2.Nodup := by
  have hadj : ∀ x, find_wire_connections wires x ⊆ Finset.range wires.length :=
    fun x => find_wire_connections_subset wires x
  obtain ⟨hstart, hclosed, hnodup⟩ :=
    get_connected_wires_spec wires.length (find_wire_connections wires) hadj A hA
  have hBmem : B ∈ find_wire_connections wires A := by
    unfold find_wire_connections
    rw [Finset.mem_filter, Finset.mem_range]
    exact ⟨hB, Ne.symm hAB, htouchAB⟩
  have hCmem : C ∈ find_wire_connections wires B := by
    unfold find_wire_connections
    rw [Finset.mem_filter, Finset.mem_range]
    exact ⟨hC, Ne.symm hBC, htouchBC⟩
  have hBS := hclosed A hstart hBmem
  have hCS := hclosed B hBS hCmem
  exact ⟨fun i j hi hj => find_wire_connections_symm wires i j hi hj, hCS, hnodup⟩

/-- Witness for C7 on a three-wire chain. -/
theorem c7_connectivity_transitive_witness :
    wiresTouch [((0 : ℚ), (0 : ℚ)), (100, 0)] [(100, 0), (200, 0)] = true ∧
    2 ∈ (get_connected_wires 3
      (find_wire_connections
        [[((0 : ℚ), (0 : ℚ)), (100, 0)], [(100, 0), (200, 0)], [(200, 0), (300, 0)]]) 0).1 :=
  ⟨wires_touch_ex1,
   (c7_connectivity_transitive
      [[(0, 0), (100, 0)], [(100, 0), (200, 0)], [(200, 0), (300, 0)]] 0 1 2
      (by norm_num) (by norm_num) (by norm_num) (by norm_num) (by norm_num)
      wires_touch_ex1 wires_touch_ex2).2.1⟩

/-- The probability one bitstring entry adds to the `0`-counter of bucket
`j` (its count over the total when its `j`-th character is `0`). -/
def contrib0 (T : ℚ) (j : ℕ) (bc : List Char × ℕ) : ℚ :=
  if j < (stripWS bc.1).length ∧ (stripWS bc.1).getD j 'x' = '0' then (bc.2 : ℚ) / T else 0

/-- The probability one bitstring entry adds to the `1`-counter of bucket
`j`. -/
def contrib1 (T : ℚ) (j : ℕ) (bc : List Char × ℕ) : ℚ :=
  if j < (stripWS bc.1).length ∧ (stripWS bc.1).getD j 'x' = '1' then (bc.2 : ℚ) / T else 0

/-- Value of a bucket after the inner per-bitstring loop: positions covered
by the bitstring receive the probability on the counter selected by their
character; every other bucket is untouched. -/
lemma procBits_val (prob : ℚ) :
    ∀ (bits : List Char) (k0 : ℕ) (r : ProcResult) (j : ℕ),
      (procBits prob k0 bits r).val j =
        if k0 ≤ j ∧ j < k0 + bits.length then
          (if bits.getD (j - k0) 'x' = '0' then ((r.val j).1 + prob, (r.val j).2)
           else if bits.getD (j - k0) 'x' = '1' then ((r.val j).1, (r.val j).2 + prob)
           else r.val j)
        else r.val j := by
  intro bits
  induction bits with
  | nil =>
      intro k0 r j
      rw [procBits, if_neg (by simp only [List.length_nil]; omega)]
  | cons c rest ih =>
      intro k0 r j
      rw [procBits, ih]
      by_cases hj : j = k0
      · subst hj
        have hlen : j ≤ j ∧ j < j + (c :: rest).length := by
          simp only [List.length_cons]; omega
        rw [if_neg (by omega), if_pos hlen]
        simp only [Nat.sub_self, List.getD_cons_zero]
        by_cases h0 : c = '0'
        · rw [if_pos h0]
          simp [bucketAdd, h0]
        · rw [if_neg h0]
          by_cases h1 : c = '1'
          · rw [if_pos h1]
            simp [bucketAdd, h0, h1]
          · rw [if_neg h1]
            simp [bucketAdd, h0, h1]
      · have hba : (bucketAdd r k0 c prob).val j = r.val j := by
          simp [bucketAdd, hj]
        by_cases hrange : k0 + 1 ≤ j ∧ j < (k0 + 1) + rest.length
        · have hlen : k0 ≤ j ∧ j < k0 + (c :: rest).length := by
            simp only [List.length_cons]; omega
          rw [if_pos hrange, if_pos hlen, hba]
          have hidx : j - k0 = (j - (k0 + 1)) + 1 := by omega
          rw [hidx, List.getD_cons_succ]
        · have hlen : ¬(k0 ≤ j ∧ j < k0 + (c :: rest).length) := by
            simp only [List.length_cons]; omega
          rw [if_neg hrange, if_neg hlen, hba]

/-- Buckets created by the inner loop: exactly the positions the bitstring
covers, plus whatever was already present. -/
lemma procBits_domain (prob : ℚ) :
    ∀ (bits : List Char) (k0 : ℕ) (r : ProcResult) (j : ℕ),
      j ∈ (procBits prob k0 bits r).domain ↔
        j ∈ r.domain ∨ (k0 ≤ j ∧ j < k0 + bits.length) := by
  intro bits
  induction bits with
  | nil =>
      intro k0 r j
      rw [procBits]
      constructor
      · intro h; exact Or.inl h
      · rintro (h | h)
        · exact h
        · simp only [List.length_nil] at h
          omega
  | cons c rest ih =>
      intro k0 r j
      rw [procBits, ih]
      simp only [bucketAdd, Finset.mem_insert, List.length_cons]
      constructor
      · rintro ((rfl | h) | h)
        · right; omega
        · exact Or.inl h
        · right; omega
      · rintro (h | h)
        · exact Or.inl (Or.inr h)
        · by_cases hj : j = k0
          · exact Or.inl (Or.inl hj)
          · right; omega

/-- Accumulated bucket value over the whole counts fold: the starting value
plus the per-entry contributions. -/
lemma foldl_proc_val (T : ℚ) :
    ∀ (counts : List (List Char × ℕ)) (r : ProcResult) (j : ℕ),
      ((counts.foldl
          (fun r bc => procBits ((bc.2 : ℚ) / T) 0 (stripWS bc.1) r) r).val j)
        = ((r.val j).1 + (counts.map (contrib0 T j)).sum,
           (r.val j).2 + (counts.map (contrib1 T j)).sum) := by
  intro counts
  induction counts with
  | nil => intro r j; simp
  | cons bc rest ih =>
      intro r j
      rw [List.foldl_cons, ih]
      rw [procBits_val]
      simp only [List.map_cons, List.sum_cons, contrib0, contrib1, Nat.sub_zero]
      by_cases hr : 0 ≤ j ∧ j < 0 + (stripWS bc.1).length
      · have hlt : j < (stripWS bc.1).length := by omega
        rw [if_pos hr]
        by_cases h0 : (stripWS bc.1).getD j 'x' = '0'
        · rw [if_pos h0, if_pos ⟨hlt, h0⟩,
            if_neg (by rintro ⟨-, h⟩; rw [h0] at h; exact absurd h (by decide))]
          rw [Prod.mk.injEq]
          constructor <;> ring
        · rw [if_neg h0]
          by_cases h1 : (stripWS bc.1).getD j 'x' = '1'
          · rw [if_pos h1,
              if_neg (show ¬(j < (stripWS bc.1).length ∧ (stripWS bc.1).getD j 'x' = '0')
                from fun h => h0 h.2),
              if_pos ⟨hlt, h1⟩]
            rw [Prod.mk.injEq]
            constructor <;> ring
          · rw [if_neg h1,
              if_neg (show ¬(j < (stripWS bc.1).length ∧ (stripWS bc.1).getD j 'x' = '0')
                from fun h => h0 h.2),
              if_neg (show ¬(j < (stripWS bc.1).length ∧ (stripWS bc.1).getD j 'x' = '1')
                from fun h => h1 h.2)]
            rw [Prod.mk.injEq]
            constructor <;> ring
      · rw [if_neg hr,
          if_neg (show ¬(j < (stripWS bc.1).length ∧ (stripWS bc.1).getD j 'x' = '0')
            from fun h => hr ⟨by omega, by omega⟩),
          if_neg (show ¬(j < (stripWS bc.1).length ∧ (stripWS bc.1).getD j 'x' = '1')
            from fun h => hr ⟨by omega, by omega⟩)]
        rw [Prod.mk.injEq]
        constructor <;> ring

/-- Buckets present after the whole counts fold. -/
lemma foldl_proc_domain (T : ℚ) :
    ∀ (counts : List (List Char × ℕ)) (r : ProcResult) (j : ℕ),
      j ∈ ((counts.foldl
          (fun r bc => procBits ((bc.2 : ℚ) / T) 0 (stripWS bc.1) r) r).domain) ↔
        j ∈ r.domain ∨ ∃ bc ∈ counts, j < (stripWS bc.1).length := by
  intro counts
  induction counts with
  | nil => intro r j; simp
  | cons bc rest ih =>
      intro r j
      rw [List.foldl_cons, ih, procBits_domain]
      constructor
      · rintro ((h | h) | ⟨bc', hbc', h⟩)
        · exact Or.inl h
        · exact Or.inr ⟨bc, List.mem_cons_self _ _, by omega⟩
        · exact Or.inr ⟨bc', List.mem_cons_of_mem _ hbc', h⟩
      · rintro (h | ⟨bc', hbc', h⟩)
        · exact Or.inl (Or.inl h)
        · rcases List.mem_cons.mp hbc' with rfl | hbc'
          · exact Or.inl (Or.inr ⟨by omega, by omega⟩)
          · exact Or.inr ⟨bc', hbc', h⟩

/-- C9: for a non-empty `MeasurementCounts` with nonzero total (bitstrings
of one common length over the characters `0`/`1`, as produced by the
execution engine), every sensor bucket of the aggregator satisfies
`prob_0 + prob_1 = 1` exactly; for empty counts or a zero total the result
is the empty dictionary and no division is attempted. -/
theorem c9_probability_sum (counts : List (List Char × ℕ)) (L : ℕ)
    (hlen : ∀ bc ∈ counts, (stripWS bc.1).length = L)
    (hbin : ∀ bc ∈ counts, ∀ c ∈ stripWS bc.1, c = '0' ∨ c = '1') :
    (counts ≠ [] → totalShots counts ≠ 0 →
      ∀ j ∈ (process_measurement_results counts).domain,
        ((process_measurement_results counts).val j).1
          + ((process_measurement_results counts).val j).2 = 1) ∧
    (counts = [] ∨ totalShots counts = 0 →
      process_measurement_results counts = emptyProc) := by
  constructor
  · intro hne hT j hj
    have hproc : process_measurement_results counts
        = counts.foldl
            (fun r bc => procBits ((bc.2 : ℚ) / (totalShots counts : ℚ)) 0 (stripWS bc.1) r)
            emptyProc := by
      rw [process_measurement_results, if_neg (by tauto)]
    rw [hproc] at hj ⊢
    rw [foldl_proc_val]
    have hval0 : (emptyProc.val j) = (0, 0) := rfl
    rw [hval0]
    simp only [zero_add]
    have hcontrib : ∀ bc ∈ counts,
        contrib0 (totalShots counts : ℚ) j bc + contrib1 (totalShots counts : ℚ) j bc
          = (bc.2 : ℚ) / (totalShots counts : ℚ) := by
      intro bc hbc
      have hjL : j < (stripWS bc.1).length := by
        rw [foldl_proc_domain] at hj
        rcases hj with hj | ⟨bc', hbc', hj⟩
        · cases hj
        · rw [hlen bc hbc]
          rw [hlen bc' hbc'] at hj
          exact hj
      have hmem : (stripWS bc.1).getD j 'x' ∈ stripWS bc.1 := by
        rw [List.getD_eq_getElem _ _ hjL]
        exact List.getElem_mem hjL
      rcases hbin bc hbc _ hmem with h0 | h1
      · rw [contrib0, contrib1, if_pos ⟨hjL, h0⟩,
          if_neg (show ¬((j < (stripWS bc.1).length) ∧ (stripWS bc.1).getD j 'x' = '1')
            from by rintro ⟨-, h⟩; rw [h0] at h; exact absurd h (by decide))]
        ring
      · rw [contrib0, contrib1,
          if_neg (show ¬((j < (stripWS bc.1).length) ∧ (stripWS bc.1).getD j 'x' = '0')
            from by rintro ⟨-, h⟩; rw [h1] at h; exact absurd h (by decide)),
          if_pos ⟨hjL, h1⟩]
        ring
    have hsum : (counts.map (contrib0 (totalShots counts : ℚ) j)).sum
        + (counts.map (contrib1 (totalShots counts : ℚ) j)).sum
        = (counts.map (fun bc => (bc.2 : ℚ) / (totalShots counts : ℚ))).sum := by
      rw [← List.sum_map_add]
      exact congrArg List.sum (List.map_congr_left hcontrib)
    rw [hsum]
    have hdiv : counts.map (fun bc => (bc.2 : ℚ) / (totalShots counts : ℚ))
        = counts.map (fun bc => (bc.2 : ℚ) * (totalShots counts : ℚ)⁻¹) := by
      exact List.map_congr_left (fun bc _ => div_eq_mul_inv _ _)
    rw [hdiv, List.sum_map_mul_right]
    have hcast : (counts.map (fun bc => (bc.2 : ℚ))).sum = ((totalShots counts : ℕ) : ℚ) := by
      rw [totalShots, Nat.cast_list_sum, List.map_map]
      rfl
    rw [hcast]
    exact mul_inv_cancel₀ (Nat.cast_ne_zero.mpr hT)
  · intro h
    rw [process_measurement_results, if_pos h]

/-- Witness for C9: bucket 0 of a two-entry counts dictionary with 1000
total shots sums to probability 1. -/
theorem c9_probability_sum_witness :
    ((process_measurement_results [(['0', '1'], 600), (['1', '0'], 400)]).val 0).1
      + ((process_measurement_results [(['0', '1'], 600), (['1', '0'], 400)]).val 0).2
      = 1 :=
  (c9_probability_sum [(['0', '1'], 600), (['1', '0'], 400)] 2
      (by decide) (by decide)).1 (by decide) (by decide) 0 (by decide)

/-- C5 (amended): an exception escaping any external call of the simulate
cycle is caught and the error message is written to the status area; the
cached SensorStatistics and the sensor report are unchanged provided the
exception is raised before the processed results are stored (any step up to
and including the engine run and counts retrieval), and the report text
survives a raise at any step. -/
theorem c5_exception_preserves_stats (renderText : ProcResult → String)
    (render errMsg : String) (counts : List (List Char × ℕ)) (s0 : AppState) (k : ℕ) :
    (simulate_cycle renderText render errMsg counts false (some k) s0).circuit_info
      = errMsg ∧
    (k ≤ 6 →
      (simulate_cycle renderText render errMsg counts false (some k) s0).sensor_data
        = s0.sensor_data) ∧
    (k ≤ 7 →
      (simulate_cycle renderText render errMsg counts false (some k) s0).sensor_text
        = s0.sensor_text) := by
  refine ⟨rfl, ?_, ?_⟩
  · intro hk
    interval_cases k <;> rfl
  · intro hk
    interval_cases k <;> rfl

/-- Witness for C5 (amended) at the engine-run step on a concrete state. -/
theorem c5_exception_preserves_stats_witness :
    (simulate_cycle (fun _ => "") "render" "err" [(['0'], 1000)] false (some 5)
        (AppState.mk emptyProc "info" "text")).circuit_info = "err" ∧
    (simulate_cycle (fun _ => "") "render" "err" [(['0'], 1000)] false (some 5)
        (AppState.mk emptyProc "info" "text")).sensor_data = emptyProc ∧
    (simulate_cycle (fun _ => "") "render" "err" [(['0'], 1000)] false (some 5)
        (AppState.mk emptyProc "info" "text")).sensor_text = "text" := by
  obtain ⟨h1, h2, h3⟩ := c5_exception_preserves_stats (fun _ => "") "render" "err"
    [(['0'], 1000)] (AppState.mk emptyProc "info" "text") 5
  exact ⟨h1, h2 (by norm_num), h3 (by norm_num)⟩

/-- Counterexample to C5 as stated: an exception raised in the final
report-update step of the simulate cycle (after `self.sensor_data` has been
reassigned) leaves the freshly computed statistics in place, so the
SensorStatistics are NOT unchanged from before the call. -/
theorem c5_counterexample :
    (simulate_cycle (fun _ => "") "render" "err" [(['0'], 1000)] false (some 7)
        (AppState.mk emptyProc "info" "text")).sensor_data ≠ emptyProc := by
  intro h
  have hd := congrArg ProcResult.domain h
  have hsd : (simulate_cycle (fun _ => "") "render" "err" [(['0'], 1000)] false (some 7)
      (AppState.mk emptyProc "info" "text")).sensor_data
      = process_measurement_results [(['0'], 1000)] := rfl
  rw [hsd] at hd
  have hdom : (process_measurement_results [(['0'], 1000)]).domain = {0} := by
    have hT : totalShots [(['0'], 1000)] = 1000 := rfl
    rw [process_measurement_results,
      if_neg (by rw [hT]; rintro (h | h) <;> simp_all)]
    rfl
  rw [hdom] at hd
  have : (0 : ℕ) ∈ (∅ : Finset ℕ) := by
    rw [show (emptyProc.domain) = (∅ : Finset ℕ) from rfl] at hd
    rw [← hd]
    exact Finset.mem_singleton_self 0
  cases this

/-- Length of a filterMap whose function is an if-then-some: the number of
elements passing the test. -/
lemma length_filterMap_ite {α β : Type} (l : List α) (p : α → Bool) (f : α → β) :
    (l.filterMap (fun a => if p a then some (f a) else none)).length
      = (l.filter p).length := by
  induction l with
  | nil => simp
  | cons a rest ih =>
      by_cases ha : p a
      · simp only [List.filterMap_cons, ha, if_true, List.filter_cons_of_pos ha,
          List.length_cons]
        rw [ih]
      · have ha' : p a = false := by simpa using ha
        simp only [List.filterMap_cons, ha', Bool.false_eq_true, if_false]
        rw [List.filter_cons_of_neg ha]
        exact ih

/-- Entry count of the per-wire gate collection: one entry per (gate,
matching segment) pair. -/
lemma wire_gates_length (gates : List Gate) (w : List Pt) :
    (wire_gates gates w).length
      = (gates.map (fun g =>
          ((segments w).filter
            (fun seg => point_on_line_segment g.pos seg.1 seg.2)).length)).sum := by
  rw [wire_gates, List.length_flatMap]
  congr 1
  apply List.map_congr_left
  intro g hg
  exact length_filterMap_ite (segments w) _ _

/-- Every collected entry pairs one of the diagram gates with the position
of that gate's marker along the whole wire. -/
lemma wire_gates_mem (gates : List Gate) (w : List Pt) (gp : Gate × ℝ)
    (h : gp ∈ wire_gates gates w) :
    gp.1 ∈ gates ∧ gp.2 = get_position_along_wire gp.1.pos w := by
  rw [wire_gates, List.mem_flatMap] at h
  obtain ⟨g, hg, h⟩ := h
  rw [List.mem_filterMap] at h
  obtain ⟨seg, hseg, h⟩ := h
  by_cases hon : point_on_line_segment g.pos seg.1 seg.2
  · rw [if_pos hon, Option.some_inj] at h
    subst h
    exact ⟨hg, rfl⟩
  · rw [if_neg hon] at h
    cases h

/-- Length of the per-wire operation list: the sorted order is a
permutation, so each collected entry contributes the length of its gate's
translation. -/
lemma wireOps_length (gates : List Gate) (w : List Pt) (idx numWires : ℕ) :
    (wireOps gates w idx numWires).length
      = ((wire_gates gates w).map
          (fun gp => (add_gate_to_circuit gp.1.type idx numWires).length)).sum := by
  rw [wireOps, List.length_flatMap]
  apply List.Perm.sum_eq
  exact List.Perm.map _ (List.mergeSort_perm _ _)

/-- The position value used by the compiler comes from the LAST matching
segment in point order: when segment `k` contains the point and no later
segment does, `get_position_along_wire` divides the prefix length before
segment `k` plus the distance from that segment's start by the total
length. -/
lemma get_position_along_wire_last_match (p : Pt) (w : List Pt) (k : ℕ)
    (hk : k < (segments w).length)
    (hmatch : point_on_line_segment p ((segments w)[k]).1 ((segments w)[k]).2 = true)
    (hafter : ∀ j (hj : j < (segments w).length), k < j →
      point_on_line_segment p ((segments w)[j]).1 ((segments w)[j]).2 = false) :
    get_position_along_wire p w
      = (sumLen ((segments w).take k)
          + Real.sqrt ((distSqQ p ((segments w)[k]).1 : ℚ) : ℝ)) / totalLen w := by
  have hsplit : segments w =
      (segments w).take k ++ (segments w)[k] :: (segments w).drop (k + 1) := by
    rw [← List.drop_eq_getElem_cons hk, List.take_append_drop]
  have hnomatch : ∀ s' ∈ (segments w).drop (k + 1),
      point_on_line_segment p s'.1 s'.2 = false := by
    intro s' hs'
    rw [List.mem_iff_getElem] at hs'
    obtain ⟨t, ht, hts⟩ := hs'
    rw [List.getElem_drop] at hts
    subst hts
    exact hafter (k + 1 + t) (by rw [List.length_drop] at ht; omega) (by omega)
  have hpair : posAux p (segments w) 0 0 none
      = (sumLen (segments w),
         some ((segments w)[k], sumLen ((segments w).take k))) := by
    have h1 : (posAux p (segments w) 0 0 none).1 = sumLen (segments w) := by
      rw [posAux_fst]; ring
    have h2 : (posAux p (segments w) 0 0 none).2
        = some ((segments w)[k], sumLen ((segments w).take k)) := by
      conv_lhs => rw [hsplit]
      rw [posAux_snd_of_last_match _ _ _ _ hmatch hnomatch 0 0 none]
      norm_num
    rw [← h1, ← h2]
  unfold get_position_along_wire
  rw [hpair]
  simp only [totalLen]

/-- C2 (amended): for every wire, the gate-collection loop produces one
entry per (gate, matching segment) pair — a gate lying on several segments
of the wire is collected, and hence translated, once per matching segment —
every entry carries `positionAlong(gate.pos, wire)`, the emitted operation
count follows those entries, and the arc-length position is computed from
the LAST matching segment in point order. -/
theorem c2_gate_collection (gates : List Gate) (w : List Pt) (idx numWires : ℕ) :
    ((wire_gates gates w).length
      = (gates.map (fun g =>
          ((segments w).filter
            (fun seg => point_on_line_segment g.pos seg.1 seg.2)).length)).sum) ∧
    (∀ gp ∈ wire_gates gates w,
      gp.1 ∈ gates ∧ gp.2 = get_position_along_wire gp.1.pos w) ∧
    ((wireOps gates w idx numWires).length
      = ((wire_gates gates w).map
          (fun gp => (add_gate_to_circuit gp.1.type idx numWires).length)).sum) ∧
    (∀ (p : Pt) (k : ℕ) (hk : k < (segments w).length),
      point_on_line_segment p ((segments w)[k]).1 ((segments w)[k]).2 = true →
      (∀ j (hj : j < (segments w).length), k < j →
        point_on_line_segment p ((segments w)[j]).1 ((segments w)[j]).2 = false) →
      get_position_along_wire p w
        = (sumLen ((segments w).take k)
            + Real.sqrt ((distSqQ p ((segments w)[k]).1 : ℚ) : ℝ)) / totalLen w) :=
  ⟨wire_gates_length gates w,
   fun gp h => wire_gates_mem gates w gp h,
   wireOps_length gates w idx numWires,
   fun p k hk hm ha => get_position_along_wire_last_match p w k hk hm ha⟩

/-- Witness for C2 (amended): the gate at the joint of a two-segment wire
gets the position computed from the second (last matching) segment. -/
theorem c2_gate_collection_witness :
    get_position_along_wire (20, 0) [(0, 0), (20, 0), (20, 20)]
      = (sumLen ((segments [(0, 0), (20, 0), (20, 20)]).take 1)
          + Real.sqrt ((distSqQ (20, 0) (20, 0) : ℚ) : ℝ))
        / totalLen [(0, 0), (20, 0), (20, 20)] :=
  (c2_gate_collection [] [(0, 0), (20, 0), (20, 20)] 0 1).2.2.2 (20, 0) 1
    (by decide)
    (point_on_line_segment_start (20, 0) (20, 20))
    (fun j hj hkj => absurd hj (by
      rw [show (segments [((0 : ℚ), (0 : ℚ)), (20, 0), (20, 20)]).length = 2 from rfl]
      omega))

/-- Counterexample to C2 as stated: a single H gate lying on two segments of
one wire (at their shared joint) is emitted twice for that wire, not exactly
once. -/
theorem c2_counterexample :
    point_on_line_segment (20, 0) (0, 0) (20, 0) = true ∧
    point_on_line_segment (20, 0) (20, 0) (20, 20) = true ∧
    (wireOps [Gate.mk "H" (20, 0)] [(0, 0), (20, 0), (20, 20)] 0 1).length = 2 := by
  refine ⟨point_on_line_segment_end _ _, point_on_line_segment_start _ _, ?_⟩
  rw [wireOps_length]
  have hmap : ((wire_gates [Gate.mk "H" (20, 0)] [(0, 0), (20, 0), (20, 20)]).map
        (fun gp => (add_gate_to_circuit gp.1.type 0 1).length))
      = (wire_gates [Gate.mk "H" (20, 0)] [(0, 0), (20, 0), (20, 20)]).map
        (fun _ => 1) := by
    apply List.map_congr_left
    intro gp hgp
    obtain ⟨hg, -⟩ := wire_gates_mem _ _ gp hgp
    have hgeq : gp.1 = Gate.mk "H" (20, 0) := List.mem_singleton.mp hg
    rw [hgeq]
    rfl
  rw [hmap]
  have hconst : ((wire_gates [Gate.mk "H" (20, 0)] [(0, 0), (20, 0), (20, 20)]).map
        (fun _ => (1 : ℕ))).sum
      = (wire_gates [Gate.mk "H" (20, 0)] [(0, 0), (20, 0), (20, 20)]).length := by
    induction wire_gates [Gate.mk "H" (20, 0)] [(0, 0), (20, 0), (20, 20)] with
    | nil => rfl
    | cons a rest ih =>
        simp only [List.map_cons, List.sum_cons, List.length_cons, ih]
        omega
  rw [hconst, wire_gates_length]
  simp only [List.map_cons, List.map_nil, List.sum_cons, List.sum_nil]
  rw [show segments [((0 : ℚ), (0 : ℚ)), (20, 0), (20, 20)]
      = [((0, 0), (20, 0)), ((20, 0), (20, 20))] from rfl]
  have hp0 : point_on_line_segment (20, 0) (0, 0) (20, 0) = true :=
    point_on_line_segment_end _ _
  have hp1 : point_on_line_segment (20, 0) (20, 0) (20, 20) = true :=
    point_on_line_segment_start _ _
  simp only [List.filter_cons, List.filter_nil, hp0, hp1, if_true, List.length_cons,
    List.length_nil]
  omega

/-- In a sorted list, a smaller member splits the list with any larger
member to its right. -/
lemma sorted_split_of_lt {l : List ℕ} (hs : l.Sorted (· ≤ ·)) {a b : ℕ}
    (ha : a ∈ l) (hb : b ∈ l) (hab : a < b) :
    ∃ l1 l2, l = l1 ++ a :: l2 ∧ b ∈ l2 := by
  obtain ⟨l1, l2, rfl⟩ := List.append_of_mem ha
  refine ⟨l1, l2, rfl, ?_⟩
  have hs' : List.Pairwise (· ≤ ·) (l1 ++ a :: l2) := hs
  rw [List.pairwise_append] at hs'
  rcases List.mem_append.mp hb with hb1 | hb2
  · exfalso
    have := hs'.2.2 b hb1 a (List.mem_cons_self _ _)
    omega
  · rcases List.mem_cons.mp hb2 with rfl | hb2
    · omega
    · exact hb2

/-- C3 helper: within one connected group, the wire with the smaller index
is processed first — its reset and its gate operations appear before the
larger wire's reset, which is in turn followed by that wire's gate
operations. -/
lemma processGroup_order (wires : List (List Pt)) (gates : List Gate) (numWires : ℕ)
    (grp : Finset ℕ) (a b : ℕ) (ha : a ∈ grp) (hb : b ∈ grp) (hab : a < b) :
    ∃ pre mid post, processGroup wires gates numWires grp
      = pre ++ Op.reset a :: (wireOps gates (wires.getD a []) a numWires
          ++ (mid ++ Op.reset b :: (wireOps gates (wires.getD b []) b numWires ++ post))) := by
  obtain ⟨l1, l2, hsplit, hbl2⟩ := sorted_split_of_lt (Finset.sort_sorted (· ≤ ·) grp)
    ((Finset.mem_sort _).mpr ha) ((Finset.mem_sort _).mpr hb) hab
  obtain ⟨l3, l4, rfl⟩ := List.append_of_mem hbl2
  refine ⟨l1.flatMap
      (fun k => Op.reset k :: wireOps gates (wires.getD k []) k numWires),
    l3.flatMap (fun k => Op.reset k :: wireOps gates (wires.getD k []) k numWires),
    l4.flatMap (fun k => Op.reset k :: wireOps gates (wires.getD k []) k numWires), ?_⟩
  rw [processGroup, hsplit]
  simp only [List.flatMap_append, List.flatMap_cons, List.cons_append, List.append_assoc]

/-- One unfolding step of the reachability search. -/
lemma dfsAux_step (adj : ℕ → Finset ℕ) (fuel : ℕ) (conn : Finset ℕ) (cur : ℕ)
    (stack visits : List ℕ) :
    dfsAux adj (fuel + 1) conn (cur :: stack) visits
      = dfsAux adj fuel
          (conn ∪ (((adj cur).sort (· ≤ ·)).filter (fun x => decide (x ∉ conn))).toFinset)
          ((((adj cur).sort (· ≤ ·)).filter (fun x => decide (x ∉ conn))).reverse ++ stack)
          (visits ++ [cur]) := rfl

/-- The two scenario wires share the endpoint `(100, 100)`. -/
lemma wires_touch_sc :
    wiresTouch [((60 : ℚ), (100 : ℚ)), (100, 100)] [(100, 100), (140, 100)] = true := by
  simp only [wiresTouch, wireEndpoints, List.headD_cons, List.getLastD_cons,
    List.any_cons, List.any_nil, point_near_pos, distSqQ, Bool.or_eq_true,
    decide_eq_true_eq]
  norm_num

/-- Adjacency of scenario wire 0. -/
lemma adj_sc_0 :
    find_wire_connections
      [[((60 : ℚ), (100 : ℚ)), (100, 100)], [(100, 100), (140, 100)]] 0 = {1} := by
  apply Finset.ext
  intro j
  simp only [find_wire_connections, Finset.mem_filter, Finset.mem_range,
    Finset.mem_singleton, List.length_cons, List.length_nil]
  constructor
  · rintro ⟨hj, hne, -⟩
    omega
  · rintro rfl
    exact ⟨by omega, by omega, wires_touch_sc⟩

/-- Adjacency of scenario wire 1. -/
lemma adj_sc_1 :
    find_wire_connections
      [[((60 : ℚ), (100 : ℚ)), (100, 100)], [(100, 100), (140, 100)]] 1 = {0} := by
  apply Finset.ext
  intro j
  simp only [find_wire_connections, Finset.mem_filter, Finset.mem_range,
    Finset.mem_singleton, List.length_cons, List.length_nil]
  constructor
  · rintro ⟨hj, hne, -⟩
    omega
  · rintro rfl
    refine ⟨by omega, by omega, ?_⟩
    rw [show ([[((60 : ℚ), (100 : ℚ)), (100, 100)], [(100, 100), (140, 100)]].getD 1 [])
        = [((100 : ℚ), (100 : ℚ)), (140, 100)] from rfl,
      show ([[((60 : ℚ), (100 : ℚ)), (100, 100)], [(100, 100), (140, 100)]].getD 0 [])
        = [((60 : ℚ), (100 : ℚ)), (100, 100)] from rfl,
      wiresTouch_comm]
    exact wires_touch_sc

/-- The connected group resolved for scenario wire 0 is both wires. -/
lemma grp_sc :
    (get_connected_wires 2
      (find_wire_connections
        [[((60 : ℚ), (100 : ℚ)), (100, 100)], [(100, 100), (140, 100)]]) 0).1
      = {0, 1} := by
  unfold get_connected_wires
  rw [show (2 + 2) = 3 + 1 from rfl, dfsAux_step, adj_sc_0]
  rw [show ((({1} : Finset ℕ).sort (· ≤ ·)).filter
      (fun x => decide (x ∉ ({0} : Finset ℕ)))) = [1] from by
    rw [Finset.sort_singleton]; decide]
  rw [show (({0} : Finset ℕ) ∪ ([1] : List ℕ).toFinset) = ({0, 1} : Finset ℕ) from by decide]
  rw [show (([1] : List ℕ).reverse ++ []) = [1] from by decide]
  rw [show (3 : ℕ) = 2 + 1 from rfl, dfsAux_step, adj_sc_1]
  rw [show ((({0} : Finset ℕ).sort (· ≤ ·)).filter
      (fun x => decide (x ∉ ({0, 1} : Finset ℕ)))) = ([] : List ℕ) from by
    rw [Finset.sort_singleton]; decide]
  rw [show (({0, 1} : Finset ℕ) ∪ (([] : List ℕ)).toFinset) = ({0, 1} : Finset ℕ) from by decide]
  rfl

/-- The scenario CNOT marker lies on wire 0's single segment. -/
lemma on_seg_sc0 :
    point_on_line_segment (80, 100) (60, 100) (100, 100) = true := by
  simp only [point_on_line_segment, distToSegSq, distSqQ, Bool.and_eq_true,
    decide_eq_true_eq]
  norm_num

/-- The scenario CNOT marker does not lie on wire 1's segment. -/
lemma on_seg_sc1 :
    point_on_line_segment (80, 100) (100, 100) (140, 100) = false := by
  simp only [point_on_line_segment, distToSegSq, distSqQ]
  simp only [Bool.and_eq_false_iff, decide_eq_false_iff_not]
  right
  intro h
  norm_num at h

/-- Gate operations of scenario wire 0: the CNOT at its midpoint. -/
lemma wireOps_sc0 :
    wireOps [Gate.mk "CNOT" (80, 100)] [((60 : ℚ), (100 : ℚ)), (100, 100)] 0 2
      = [Op.cx 0 1] := by
  have hwg : wire_gates [Gate.mk "CNOT" (80, 100)] [((60 : ℚ), (100 : ℚ)), (100, 100)]
      = [(Gate.mk "CNOT" (80, 100),
          get_position_along_wire (80, 100) [((60 : ℚ), (100 : ℚ)), (100, 100)])] := by
    rw [wire_gates]
    simp only [List.flatMap_cons, List.flatMap_nil, List.append_nil]
    rw [show segments [((60 : ℚ), (100 : ℚ)), (100, 100)]
        = [(((60 : ℚ), (100 : ℚ)), ((100 : ℚ), (100 : ℚ)))] from rfl]
    simp only [List.filterMap_cons, List.filterMap_nil, on_seg_sc0, if_true]
  rw [wireOps, hwg, sortGates, List.mergeSort_singleton]
  simp only [List.flatMap_cons, List.flatMap_nil, List.append_nil]
  rw [show add_gate_to_circuit (Gate.mk "CNOT" (80, 100)).type 0 2 = [Op.cx 0 1] from by
    decide]

/-- Gate operations of scenario wire 1: none. -/
lemma wireOps_sc1 :
    wireOps [Gate.mk "CNOT" (80, 100)] [((100 : ℚ), (100 : ℚ)), (140, 100)] 1 2
      = [] := by
  have hwg : wire_gates [Gate.mk "CNOT" (80, 100)] [((100 : ℚ), (100 : ℚ)), (140, 100)]
      = [] := by
    rw [wire_gates]
    simp only [List.flatMap_cons, List.flatMap_nil, List.append_nil]
    rw [show segments [((100 : ℚ), (100 : ℚ)), (140, 100)]
        = [(((100 : ℚ), (100 : ℚ)), ((140 : ℚ), (100 : ℚ)))] from rfl]
    simp only [List.filterMap_cons, List.filterMap_nil, on_seg_sc1, Bool.false_eq_true,
      if_false]
  rw [wireOps, hwg, sortGates, List.mergeSort_nil]
  rfl

/-- Scenario 2 of the spec, as the code actually behaves: two wires with
coincident endpoints and a CNOT at wire 0's midpoint compile to reset(0),
cx(0,1), reset(1) — the second reset comes AFTER wire 0's gate operation,
because each wire's reset-and-gates block is emitted before the next wire
of the group is visited. -/
lemma compile_ops_sc :
    compile_ops [[((60 : ℚ), (100 : ℚ)), (100, 100)], [(100, 100), (140, 100)]]
      [Gate.mk "CNOT" (80, 100)]
      = [Op.reset 0, Op.cx 0 1, Op.reset 1] := by
  rw [compile_ops]
  rw [show ([[((60 : ℚ), (100 : ℚ)), (100, 100)],
      [(100, 100), (140, 100)]] : List (List Pt)).length = 2 from rfl]
  rw [show List.range 2 = [0, 1] from rfl]
  simp only [compileAux]
  rw [if_neg (show (0 : ℕ) ∉ (∅ : Finset ℕ) from by decide)]
  rw [grp_sc]
  rw [if_pos (show (1 : ℕ) ∈ ((∅ : Finset ℕ) ∪ ({0, 1} : Finset ℕ)) from by decide)]
  rw [processGroup]
  rw [show (({0, 1} : Finset ℕ) : Finset ℕ) = Finset.range 2 from by decide,
    Finset.sort_range]
  rw [show List.range 2 = [0, 1] from rfl]
  simp only [List.flatMap_cons, List.flatMap_nil, List.append_nil]
  rw [show ([[((60 : ℚ), (100 : ℚ)), (100, 100)], [(100, 100), (140, 100)]].getD 0 [])
      = [((60 : ℚ), (100 : ℚ)), (100, 100)] from rfl]
  rw [show ([[((60 : ℚ), (100 : ℚ)), (100, 100)], [(100, 100), (140, 100)]].getD 1 [])
      = [((100 : ℚ), (100 : ℚ)), (140, 100)] from rfl]
  rw [wireOps_sc0, wireOps_sc1]
  rfl

/-- C3 (amended): within each resolved connected group the per-wire
processing — a reset followed by that wire's gate operations — runs in
ascending wire-index order, each wire's whole block coming before the next
wire's reset; in particular, for two wires with coincident endpoints and a
CNOT at wire 0's midpoint, the emitted sequence is reset(0), cx(0,1),
reset(1): the second reset follows the first wire's gate operations. -/
theorem c3_group_processing_order (wires : List (List Pt)) (gates : List Gate)
    (numWires : ℕ) (grp : Finset ℕ) (a b : ℕ)
    (ha : a ∈ grp) (hb : b ∈ grp) (hab : a < b) :
    (∃ pre mid post, processGroup wires gates numWires grp
      = pre ++ Op.reset a :: (wireOps gates (wires.getD a []) a numWires
          ++ (mid ++ Op.reset b :: (wireOps gates (wires.getD b []) b numWires ++ post)))) ∧
    compile_ops [[((60 : ℚ), (100 : ℚ)), (100, 100)], [(100, 100), (140, 100)]]
      [Gate.mk "CNOT" (80, 100)]
      = [Op.reset 0, Op.cx 0 1, Op.reset 1] :=
  ⟨processGroup_order wires gates numWires grp a b ha hb hab, compile_ops_sc⟩

/-- Witness for C3 (amended) on the scenario group. -/
theorem c3_group_processing_order_witness :
    ∃ pre mid post,
      processGroup [[((60 : ℚ), (100 : ℚ)), (100, 100)], [(100, 100), (140, 100)]]
        [Gate.mk "CNOT" (80, 100)] 2 ({0, 1} : Finset ℕ)
        = pre ++ Op.reset 0 ::
            (wireOps [Gate.mk "CNOT" (80, 100)]
              ([[((60 : ℚ), (100 : ℚ)), (100, 100)], [(100, 100), (140, 100)]].getD 0 []) 0 2
              ++ (mid ++ Op.reset 1 ::
                (wireOps [Gate.mk "CNOT" (80, 100)]
                  ([[((60 : ℚ), (100 : ℚ)), (100, 100)],
                    [(100, 100), (140, 100)]].getD 1 []) 1 2 ++ post))) :=
  (c3_group_processing_order
      [[((60 : ℚ), (100 : ℚ)), (100, 100)], [(100, 100), (140, 100)]]
      [Gate.mk "CNOT" (80, 100)] 2 ({0, 1} : Finset ℕ) 0 1
      (by decide) (by decide) (by norm_num)).1

/-- Counterexample to C3 as stated: the compiled sequence for the scenario
is reset(0), cx(0,1), reset(1); it is NOT of the claimed shape reset(0),
reset(1), then the gates. -/
theorem c3_counterexample :
    compile_ops [[((60 : ℚ), (100 : ℚ)), (100, 100)], [(100, 100), (140, 100)]]
      [Gate.mk "CNOT" (80, 100)] = [Op.reset 0, Op.cx 0 1, Op.reset 1] ∧
    compile_ops [[((60 : ℚ), (100 : ℚ)), (100, 100)], [(100, 100), (140, 100)]]
      [Gate.mk "CNOT" (80, 100)] ≠ [Op.reset 0, Op.reset 1, Op.cx 0 1] := by
  refine ⟨compile_ops_sc, ?_⟩
  rw [compile_ops_sc]
  decide

/-- C6 (amended): for a wire of nonzero total length whose vertices lie on
no LATER segment than their own (e.g. a non-self-overlapping polyline),
`positionAlong` is monotone non-decreasing over the drawn points, returns
exactly 0 at the first point, and returns exactly 1 at the last point. -/
theorem c6_position_monotone (w : List Pt) (hn : 2 ≤ w.length) (htot : 0 < totalLen w)
    (hfwd : ∀ i, i < w.length → ∀ j (hj : j < (segments w).length), i < j →
      point_on_line_segment (w.getD i (0, 0)) ((segments w)[j]).1 ((segments w)[j]).2
        = false) :
    (∀ i j, i ≤ j → j < w.length →
      get_position_along_wire (w.getD i (0, 0)) w
        ≤ get_position_along_wire (w.getD j (0, 0)) w) ∧
    get_position_along_wire (w.getD 0 (0, 0)) w = 0 ∧
    get_position_along_wire (w.getD (w.length - 1) (0, 0)) w = 1 := by
  have hpos : ∀ i, i < w.length →
      get_position_along_wire (w.getD i (0, 0)) w
        = sumLen ((segments w).take i) / totalLen w := by
    intro i hi
    exact get_position_along_wire_vertex w i hn hi (fun j hj hij => hfwd i hi j hj hij)
  refine ⟨?_, ?_, ?_⟩
  · intro i j hij hj
    have hi : i < w.length := lt_of_le_of_lt hij hj
    rw [hpos i hi, hpos j hj]
    exact (div_le_div_iff_of_pos_right htot).mpr (sumLen_take_mono _ hij)
  · rw [hpos 0 (by omega)]
    simp [sumLen]
  · rw [hpos (w.length - 1) (by omega)]
    rw [List.take_of_length_le (by rw [segments_length])]
    rw [totalLen]
    exact div_self (ne_of_gt htot)

/-- Witness for C6 (amended) on a straight three-point wire. -/
theorem c6_position_monotone_witness :
    (∀ i j, i ≤ j → j < ([((0 : ℚ), (0 : ℚ)), (20, 0), (40, 0)] : List Pt).length →
      get_position_along_wire
          (([((0 : ℚ), (0 : ℚ)), (20, 0), (40, 0)] : List Pt).getD i (0, 0))
          [((0 : ℚ), (0 : ℚ)), (20, 0), (40, 0)]
        ≤ get_position_along_wire
            (([((0 : ℚ), (0 : ℚ)), (20, 0), (40, 0)] : List Pt).getD j (0, 0))
            [((0 : ℚ), (0 : ℚ)), (20, 0), (40, 0)]) ∧
    get_position_along_wire
        (([((0 : ℚ), (0 : ℚ)), (20, 0), (40, 0)] : List Pt).getD 0 (0, 0))
        [((0 : ℚ), (0 : ℚ)), (20, 0), (40, 0)] = 0 ∧
    get_position_along_wire
        (([((0 : ℚ), (0 : ℚ)), (20, 0), (40, 0)] : List Pt).getD
          (([((0 : ℚ), (0 : ℚ)), (20, 0), (40, 0)] : List Pt).length - 1) (0, 0))
        [((0 : ℚ), (0 : ℚ)), (20, 0), (40, 0)] = 1 := by
  apply c6_position_monotone
  · norm_num
  · rw [show totalLen [((0 : ℚ), (0 : ℚ)), (20, 0), (40, 0)]
        = Real.sqrt ((distSqQ ((20 : ℚ), (0 : ℚ)) ((0 : ℚ), (0 : ℚ)) : ℚ) : ℝ)
          + (Real.sqrt ((distSqQ ((40 : ℚ), (0 : ℚ)) ((20 : ℚ), (0 : ℚ)) : ℚ) : ℝ) + 0)
        from rfl]
    have e1 : ((distSqQ ((20 : ℚ), (0 : ℚ)) ((0 : ℚ), (0 : ℚ)) : ℚ) : ℝ) = 400 := by
      norm_num [distSqQ]
    have e2 : ((distSqQ ((40 : ℚ), (0 : ℚ)) ((20 : ℚ), (0 : ℚ)) : ℚ) : ℝ) = 400 := by
      norm_num [distSqQ]
    rw [e1, e2]
    positivity
  · intro i hi j hj hij
    have hj2 : j < 2 := by
      rw [show (segments [((0 : ℚ), (0 : ℚ)), (20, 0), (40, 0)]).length = 2 from rfl] at hj
      exact hj
    interval_cases j
    · omega
    · have hi0 : i = 0 := by omega
      subst hi0
      show point_on_line_segment (0, 0) (20, 0) (40, 0) = false
      simp only [point_on_line_segment, Bool.and_eq_false_iff, decide_eq_false_iff_not]
      right
      intro h
      norm_num at h

/-- Counterexample to C6 as stated: a self-overlapping wire of nonzero
total length whose first point also lies on the last segment; the last
matching segment wins, so `positionAlong` at the FIRST point is 220/230,
not 0. -/
theorem c6_counterexample :
    0 < totalLen
      [((0 : ℚ), (0 : ℚ)), (100, 0), (100, 10), (0, 10), (0, -10)] ∧
    get_position_along_wire
        (([((0 : ℚ), (0 : ℚ)), (100, 0), (100, 10), (0, 10), (0, -10)] : List Pt).getD 0 (0, 0))
        [((0 : ℚ), (0 : ℚ)), (100, 0), (100, 10), (0, 10), (0, -10)] ≠ 0 := by
  have e1 : ((distSqQ ((100 : ℚ), (0 : ℚ)) ((0 : ℚ), (0 : ℚ)) : ℚ) : ℝ) = 10000 := by
    norm_num [distSqQ]
  have e2 : ((distSqQ ((100 : ℚ), (10 : ℚ)) ((100 : ℚ), (0 : ℚ)) : ℚ) : ℝ) = 100 := by
    norm_num [distSqQ]
  have e3 : ((distSqQ ((0 : ℚ), (10 : ℚ)) ((100 : ℚ), (10 : ℚ)) : ℚ) : ℝ) = 10000 := by
    norm_num [distSqQ]
  have e4 : ((distSqQ ((0 : ℚ), (-10 : ℚ)) ((0 : ℚ), (10 : ℚ)) : ℚ) : ℝ) = 400 := by
    norm_num [distSqQ]
  have e5 : ((distSqQ ((0 : ℚ), (0 : ℚ)) ((0 : ℚ), (10 : ℚ)) : ℚ) : ℝ) = 100 := by
    norm_num [distSqQ]
  have s1 : Real.sqrt ((distSqQ ((100 : ℚ), (0 : ℚ)) ((0 : ℚ), (0 : ℚ)) : ℚ) : ℝ) = 100 := by
    rw [e1, show (10000 : ℝ) = 100 ^ 2 by norm_num,
      Real.sqrt_sq (by norm_num : (0 : ℝ) ≤ 100)]
  have s2 : Real.sqrt ((distSqQ ((100 : ℚ), (10 : ℚ)) ((100 : ℚ), (0 : ℚ)) : ℚ) : ℝ) = 10 := by
    rw [e2, show (100 : ℝ) = 10 ^ 2 by norm_num,
      Real.sqrt_sq (by norm_num : (0 : ℝ) ≤ 10)]
  have s3 : Real.sqrt ((distSqQ ((0 : ℚ), (10 : ℚ)) ((100 : ℚ), (10 : ℚ)) : ℚ) : ℝ) = 100 := by
    rw [e3, show (10000 : ℝ) = 100 ^ 2 by norm_num,
      Real.sqrt_sq (by norm_num : (0 : ℝ) ≤ 100)]
  have s4 : Real.sqrt ((distSqQ ((0 : ℚ), (-10 : ℚ)) ((0 : ℚ), (10 : ℚ)) : ℚ) : ℝ) = 20 := by
    rw [e4, show (400 : ℝ) = 20 ^ 2 by norm_num,
      Real.sqrt_sq (by norm_num : (0 : ℝ) ≤ 20)]
  have s5 : Real.sqrt ((distSqQ ((0 : ℚ), (0 : ℚ)) ((0 : ℚ), (10 : ℚ)) : ℚ) : ℝ) = 10 := by
    rw [e5, show (100 : ℝ) = 10 ^ 2 by norm_num,
      Real.sqrt_sq (by norm_num : (0 : ℝ) ≤ 10)]
  have htotal : totalLen
      [((0 : ℚ), (0 : ℚ)), (100, 0), (100, 10), (0, 10), (0, -10)] = 230 := by
    rw [show totalLen [((0 : ℚ), (0 : ℚ)), (100, 0), (100, 10), (0, 10), (0, -10)]
        = Real.sqrt ((distSqQ ((100 : ℚ), (0 : ℚ)) ((0 : ℚ), (0 : ℚ)) : ℚ) : ℝ)
          + (Real.sqrt ((distSqQ ((100 : ℚ), (10 : ℚ)) ((100 : ℚ), (0 : ℚ)) : ℚ) : ℝ)
            + (Real.sqrt ((distSqQ ((0 : ℚ), (10 : ℚ)) ((100 : ℚ), (10 : ℚ)) : ℚ) : ℝ)
              + (Real.sqrt ((distSqQ ((0 : ℚ), (-10 : ℚ)) ((0 : ℚ), (10 : ℚ)) : ℚ) : ℝ)
                + 0))) from rfl]
    rw [s1, s2, s3, s4]
    norm_num
  have htake : sumLen ((segments
      [((0 : ℚ), (0 : ℚ)), (100, 0), (100, 10), (0, 10), (0, -10)]).take 3) = 210 := by
    rw [show sumLen ((segments
        [((0 : ℚ), (0 : ℚ)), (100, 0), (100, 10), (0, 10), (0, -10)]).take 3)
        = Real.sqrt ((distSqQ ((100 : ℚ), (0 : ℚ)) ((0 : ℚ), (0 : ℚ)) : ℚ) : ℝ)
          + (Real.sqrt ((distSqQ ((100 : ℚ), (10 : ℚ)) ((100 : ℚ), (0 : ℚ)) : ℚ) : ℝ)
            + (Real.sqrt ((distSqQ ((0 : ℚ), (10 : ℚ)) ((100 : ℚ), (10 : ℚ)) : ℚ) : ℝ)
              + 0)) from rfl]
    rw [s1, s2, s3]
    norm_num
  have hmatch : point_on_line_segment ((0 : ℚ), (0 : ℚ)) ((0 : ℚ), (10 : ℚ))
      ((0 : ℚ), (-10 : ℚ)) = true := by
    simp only [point_on_line_segment, distToSegSq, distSqQ, Bool.and_eq_true,
      decide_eq_true_eq]
    norm_num
  have hk4 : 3 < (segments
      [((0 : ℚ), (0 : ℚ)), (100, 0), (100, 10), (0, 10), (0, -10)]).length := by
    rw [show (segments
        [((0 : ℚ), (0 : ℚ)), (100, 0), (100, 10), (0, 10), (0, -10)]).length = 4 from rfl]
    omega
  have hafter : ∀ j (hj : j < (segments
      [((0 : ℚ), (0 : ℚ)), (100, 0), (100, 10), (0, 10), (0, -10)]).length), 3 < j →
      point_on_line_segment ((0 : ℚ), (0 : ℚ))
        ((segments [((0 : ℚ), (0 : ℚ)), (100, 0), (100, 10), (0, 10), (0, -10)])[j]).1
        ((segments [((0 : ℚ), (0 : ℚ)), (100, 0), (100, 10), (0, 10), (0, -10)])[j]).2
        = false := by
    intro j hj h3j
    rw [show (segments
        [((0 : ℚ), (0 : ℚ)), (100, 0), (100, 10), (0, 10), (0, -10)]).length = 4
      from rfl] at hj
    exact absurd hj (by omega)
  have heq := get_position_along_wire_last_match ((0 : ℚ), (0 : ℚ))
    [((0 : ℚ), (0 : ℚ)), (100, 0), (100, 10), (0, 10), (0, -10)] 3 hk4 hmatch hafter
  have heq2 : get_position_along_wire ((0 : ℚ), (0 : ℚ))
      [((0 : ℚ), (0 : ℚ)), (100, 0), (100, 10), (0, 10), (0, -10)]
      = (sumLen ((segments
          [((0 : ℚ), (0 : ℚ)), (100, 0), (100, 10), (0, 10), (0, -10)]).take 3)
        + Real.sqrt ((distSqQ ((0 : ℚ), (0 : ℚ)) ((0 : ℚ), (10 : ℚ)) : ℚ) : ℝ))
        / totalLen [((0 : ℚ), (0 : ℚ)), (100, 0), (100, 10), (0, 10), (0, -10)] := heq
  constructor
  · rw [htotal]
    norm_num
  · rw [show (([((0 : ℚ), (0 : ℚ)), (100, 0), (100, 10), (0, 10), (0, -10)]
        : List Pt).getD 0 (0, 0)) = ((0 : ℚ), (0 : ℚ)) from rfl]
    rw [heq2, htake, htotal, s5]
    norm_num
